import Mathlib

set_option autoImplicit false

namespace SabaSpec

/-!
Shallow embedding of the lexical front-end of the `sample-browser-application`
repository: the URL parser (`saba_core/src/url.rs`) and the HTML tokenizer
(`renderer/html/token.rs`).  Strings are modelled at code-point granularity as
`List Char`, matching the Rust code's `Vec<char>` input and `String` fields.
Rust panics (out-of-bounds indexing, failed `assert!`, `panic!`) are modelled
as `none` / explicit abort results.
-/

abbrev Ch := Char

deriving instance DecidableEq for Except

/-! ### URL parser (`saba_core/src/url.rs`) -/

/-- The scheme literal `"http://"` used by `is_http` and `trim_start_matches`. -/
def httpScheme : List Ch := "http://".toList

/-- `pat` is a prefix of `s` (substring match anchored at the start). -/
def startsWithL : List Ch → List Ch → Bool
  | [], _ => true
  | _ :: _, [] => false
  | p :: ps, c :: cs => p == c && startsWithL ps cs

/-- Rust `str::contains`: `pat` occurs as a contiguous substring of `s`. -/
def contains_str (s pat : List Ch) : Bool :=
  match s with
  | [] => startsWithL pat []
  | c :: rest => startsWithL pat (c :: rest) || contains_str rest pat

theorem startsWithL_length : ∀ p s : List Ch, startsWithL p s = true → p.length ≤ s.length := by
  intro p
  induction p with
  | nil => intro s _; exact Nat.zero_le _
  | cons p ps ih =>
    intro s h
    cases s with
    | nil => simp [startsWithL] at h
    | cons c cs =>
      simp only [startsWithL, Bool.and_eq_true] at h
      simpa [List.length_cons] using Nat.succ_le_succ (ih cs h.2)

/-- Fuel-driven loop of `trim_http`; each strip removes the 7 characters of
`http://`, so `s.length` units of fuel always reach the fixpoint. -/
def trim_httpF : Nat → List Ch → List Ch
  | 0, s => s
  | n + 1, s => if startsWithL httpScheme s then trim_httpF n (s.drop 7) else s

/-- Rust `str::trim_start_matches("http://")`: repeatedly strips the scheme
while it is a prefix. -/
def trim_http (s : List Ch) : List Ch := trim_httpF s.length s

/-- The fuel in `trim_http` is irrelevant as long as it is at least
`s.length`: every successful strip removes seven characters. -/
theorem trim_httpF_fuel : ∀ n m s, (s : List Ch).length ≤ n → s.length ≤ m →
    trim_httpF n s = trim_httpF m s := by
  intro n
  induction n using Nat.strong_induction_on with
  | _ n ih =>
    intro m s hn hm
    match n, m with
    | 0, m =>
      have hs : s = [] := List.length_eq_zero.mp (Nat.le_zero.mp hn)
      subst hs
      cases m <;> simp [trim_httpF, startsWithL]
    | n + 1, 0 =>
      have : s.length = 0 := Nat.le_zero.mp hm
      cases s with
      | nil => simp [trim_httpF, startsWithL]
      | cons c cs => simp at this
    | n + 1, m + 1 =>
      simp only [trim_httpF]
      split
      · next hsw =>
        have h7 : 7 ≤ s.length := startsWithL_length httpScheme s hsw
        have hd : (s.drop 7).length = s.length - 7 := by simp
        exact ih n (Nat.lt_succ_self n) m (s.drop 7)
          (by omega) (by omega)
      · rfl

/-- Rust `str::splitn(2, sep)` collected to a `Vec`, for a one-character
separator: one part if `sep` does not occur, otherwise the text before the
first occurrence and everything after it. -/
def splitn2 (sep : Ch) : List Ch → List (List Ch)
  | [] => [[]]
  | c :: cs =>
    if c == sep then [[], cs]
    else
      match splitn2 sep cs with
      | [] => [[c]]
      | hd :: tl => (c :: hd) :: tl

theorem splitn2_ne_nil (sep : Ch) (s : List Ch) : splitn2 sep s ≠ [] := by
  cases s with
  | nil => simp [splitn2]
  | cons c cs =>
    simp only [splitn2]
    split
    · simp
    · split <;> simp

/-- `Url::is_http`: the input merely has to *contain* `http://` somewhere. -/
def is_http (url : List Ch) : Bool := contains_str url httpScheme

/-- The `url_parts` vector each extractor recomputes:
`url.trim_start_matches("http://").splitn(2, "/").collect()`. -/
def url_parts (url : List Ch) : List (List Ch) := splitn2 '/' (trim_http url)

/-- `Url::extract_host`: the authority up to the first `:` (if any).
`url_parts[0]` always exists (`splitn2_ne_nil`), so `headD` is faithful. -/
def extract_host (url : List Ch) : List Ch :=
  match List.findIdx? (fun ch => ch == ':') ((url_parts url).headD []) with
  | some index => ((url_parts url).headD []).take index
  | none => (url_parts url).headD []

/-- `Url::extract_port`: the authority after the first `:`, defaulting to
`"80"` when there is no colon. -/
def extract_port (url : List Ch) : List Ch :=
  match List.findIdx? (fun ch => ch == ':') ((url_parts url).headD []) with
  | some index => ((url_parts url).headD []).drop (index + 1)
  | none => "80".toList

/-- `Url::extract_path`: empty when there is no `/` after the authority,
else the remainder up to the first `?`. -/
def extract_path (url : List Ch) : List Ch :=
  let parts := url_parts url
  if parts.length < 2 then []
  else
    let pq := (parts[1]?).getD []
    ((splitn2 '?' pq).headD [])

/-- `Url::extract_searchpart`: the text after the first `?` of the part
after the first `/`, empty when either separator is absent. -/
def extract_searchpart (url : List Ch) : List Ch :=
  let parts := url_parts url
  if parts.length < 2 then []
  else
    let pq := (parts[1]?).getD []
    let ps := splitn2 '?' pq
    if ps.length < 2 then [] else (ps[1]?).getD []

/-- The `Url` record: original input plus the four derived fields. -/
structure Url where
  url : List Ch
  host : List Ch
  port : List Ch
  path : List Ch
  searchpart : List Ch
deriving Repr, DecidableEq

/-- The fixed error message of the only failure mode. -/
def errorMsg : List Ch := "Only HTTP scheme is supported.".toList

/-- `Url::parse`: reject unless the input contains `http://`, otherwise fill
the four fields with the extractors. -/
def Url.parse (url : List Ch) : Except (List Ch) Url :=
  if is_http url then
    .ok { url := url
          host := extract_host url
          port := extract_port url
          path := extract_path url
          searchpart := extract_searchpart url }
  else
    .error errorMsg

/-! Sanity examples matching the repository's `url.rs` unit tests. -/

example :
    Url.parse ("http://example.com".toList) =
      .ok ⟨"http://example.com".toList, "example.com".toList, "80".toList, [], []⟩ := by
  decide

example :
    Url.parse ("http://example.com:8888/index.html?a=123&b=456".toList) =
      .ok ⟨"http://example.com:8888/index.html?a=123&b=456".toList,
        "example.com".toList, "8888".toList, "index.html".toList, "a=123&b=456".toList⟩ := by
  decide

example : Url.parse ("https://example.com:8888/index.html".toList) = .error errorMsg := by
  decide

/-! ### URL claims -/

/-- The four derived fields without the stored input, used to state the
spec's field-computation pipeline. -/
structure UrlFields where
  host : List Ch
  port : List Ch
  path : List Ch
  searchpart : List Ch
deriving Repr, DecidableEq

/-- The field pipeline the spec describes in §4.1, applied to the remainder
`rest` left after scheme stripping: split once at the first `/` into
authority and optional path-and-query; host/port from the first `:` of the
authority (port defaults to `"80"`); path/searchpart from the first `?` of
the path-and-query (each empty when its delimiter is absent). -/
def specPipeline (rest : List Ch) : UrlFields :=
  let parts := splitn2 '/' rest
  let a := parts.headD []
  let host := match List.findIdx? (fun ch => ch == ':') a with
    | some i => a.take i
    | none => a
  let port := match List.findIdx? (fun ch => ch == ':') a with
    | some i => a.drop (i + 1)
    | none => "80".toList
  let path := match parts[1]? with
    | none => []
    | some pq => (splitn2 '?' pq).headD []
  let searchpart := match parts[1]? with
    | none => []
    | some pq => match (splitn2 '?' pq)[1]? with
      | none => []
      | some q => q
  ⟨host, port, path, searchpart⟩

/-- The algorithm exactly as claim C5 states it: strip a leading `http://`
prefix *once* if present, then run the field pipeline. -/
def claim5Fields (s : List Ch) : UrlFields :=
  specPipeline (if startsWithL httpScheme s then s.drop 7 else s)

theorem extract_host_eq (s : List Ch) :
    extract_host s = (specPipeline (trim_http s)).host := by
  unfold extract_host specPipeline url_parts
  cases h : splitn2 '/' (trim_http s) with
  | nil => exact absurd h (splitn2_ne_nil _ _)
  | cons a tl => cases tl <;> rfl

theorem extract_port_eq (s : List Ch) :
    extract_port s = (specPipeline (trim_http s)).port := by
  unfold extract_port specPipeline url_parts
  cases h : splitn2 '/' (trim_http s) with
  | nil => exact absurd h (splitn2_ne_nil _ _)
  | cons a tl => cases tl <;> rfl

theorem extract_path_eq (s : List Ch) :
    extract_path s = (specPipeline (trim_http s)).path := by
  unfold extract_path specPipeline url_parts
  cases h : splitn2 '/' (trim_http s) with
  | nil => exact absurd h (splitn2_ne_nil _ _)
  | cons a tl =>
    cases tl with
    | nil => rfl
    | cons b tl2 => simp

theorem extract_searchpart_eq (s : List Ch) :
    extract_searchpart s = (specPipeline (trim_http s)).searchpart := by
  unfold extract_searchpart specPipeline url_parts
  cases h : splitn2 '/' (trim_http s) with
  | nil => exact absurd h (splitn2_ne_nil _ _)
  | cons a tl =>
    cases tl with
    | nil => rfl
    | cons b tl2 =>
      simp only [List.length_cons, List.getElem?_cons_succ, List.getElem?_cons_zero,
        Option.getD_some]
      rw [if_neg (by omega)]
      cases hq : splitn2 '?' b with
      | nil => exact absurd hq (splitn2_ne_nil _ _)
      | cons p qtl => cases qtl <;> simp

/-- C4: `Url::parse` fails exactly when the input does not contain the
substring `http://` anywhere, with the fixed error message; every input
containing `http://` — even not as a prefix — parses successfully. -/
theorem c4_scheme_check (s : List Ch) :
    (contains_str s httpScheme = true → ∃ u : Url, Url.parse s = Except.ok u)
    ∧ (contains_str s httpScheme = false →
        Url.parse s = Except.error ("Only HTTP scheme is supported.".toList)) := by
  constructor
  · intro h
    refine ⟨⟨s, extract_host s, extract_port s, extract_path s, extract_searchpart s⟩, ?_⟩
    unfold Url.parse
    rw [if_pos (show is_http s = true from h)]
  · intro h
    unfold Url.parse
    rw [if_neg]
    · rfl
    · show ¬ is_http s = true
      unfold is_http
      simp [h]

theorem c4_scheme_check_witness :
    (∃ u : Url, Url.parse ("not-a-url-but-contains-http://".toList) = Except.ok u)
    ∧ Url.parse ("example.com".toList) =
        Except.error ("Only HTTP scheme is supported.".toList) :=
  ⟨(c4_scheme_check ("not-a-url-but-contains-http://".toList)).1 (by decide),
   (c4_scheme_check ("example.com".toList)).2 (by decide)⟩

/-- C3 fails as stated: `"http://:"` parses successfully to the record with
host `""` and port `""` — the concrete parse result is pinned down, and it
refutes both non-emptiness conjuncts of the claim. -/
theorem c3_counterexample :
    Url.parse ("http://:".toList) = Except.ok ⟨"http://:".toList, [], [], [], []⟩
    ∧ ¬ (∀ (s : List Ch) (u : Url), Url.parse s = Except.ok u →
        u.port ≠ [] ∧ u.host ≠ []) := by
  refine ⟨by decide, ?_⟩
  intro h
  have h2 := h ("http://:".toList) ⟨"http://:".toList, [], [], [], []⟩ (by decide)
  exact h2.1 rfl

/-- C3 amended: after a successful parse, whenever the authority contains no
colon the port is exactly `"80"` (hence non-empty) and the host is the whole
authority; otherwise host and port may each be empty (`"http://:"` parses
with host `""` and port `""`); path and searchpart may be empty. -/
theorem c3_port_default (s : List Ch) (u : Url) (h : Url.parse s = Except.ok u)
    (hnc : List.findIdx? (fun ch => ch == ':') ((url_parts s).headD []) = none) :
    u.port = "80".toList ∧ u.host = (url_parts s).headD [] := by
  unfold Url.parse at h
  split at h
  · have hu := (Except.ok.injEq _ _).mp h
    constructor
    · rw [← hu]
      show extract_port s = _
      unfold extract_port
      rw [hnc]
    · rw [← hu]
      show extract_host s = _
      unfold extract_host
      rw [hnc]
  · cases h

theorem c3_port_default_witness :
    (⟨"http://example.com".toList, "example.com".toList, "80".toList, [], []⟩ : Url).port
        = "80".toList
    ∧ (⟨"http://example.com".toList, "example.com".toList, "80".toList, [], []⟩ : Url).host
        = (url_parts ("http://example.com".toList)).headD [] :=
  c3_port_default ("http://example.com".toList)
    ⟨"http://example.com".toList, "example.com".toList, "80".toList, [], []⟩
    (by decide) (by decide)

/-- C5 fails as stated: on `"http://http://a"` the code strips the scheme
repeatedly (`trim_start_matches`), giving host `"a"`, while the claimed
single strip would give host `"http"`, port `""` and path `"/a"`. -/
theorem c5_counterexample :
    ¬ (∀ s : List Ch, contains_str s httpScheme = true →
        Url.parse s = Except.ok
          ⟨s, (claim5Fields s).host, (claim5Fields s).port,
            (claim5Fields s).path, (claim5Fields s).searchpart⟩) := by
  intro h
  exact absurd (h ("http://http://a".toList) (by decide)) (by decide)

/-- C5 amended: for every input containing `http://`, parsing succeeds and
the four fields are computed by the spec's pipeline applied after stripping
*all* leading repetitions of `http://` (the code's `trim_start_matches`):
split the remainder once at the first `/`; host/port from the first `:` of
the authority (port defaulting to `"80"`); path/searchpart from the first
`?` of the optional path-and-query. -/
theorem c5_field_pipeline (s : List Ch) (h : contains_str s httpScheme = true) :
    Url.parse s = Except.ok
      ⟨s, (specPipeline (trim_http s)).host, (specPipeline (trim_http s)).port,
        (specPipeline (trim_http s)).path, (specPipeline (trim_http s)).searchpart⟩ := by
  unfold Url.parse
  rw [if_pos (show is_http s = true from h)]
  rw [extract_host_eq, extract_port_eq, extract_path_eq, extract_searchpart_eq]

theorem c5_field_pipeline_witness :
    Url.parse ("http://example.com:8888/index.html?a=123&b=456".toList) = Except.ok
      ⟨"http://example.com:8888/index.html?a=123&b=456".toList,
        (specPipeline (trim_http ("http://example.com:8888/index.html?a=123&b=456".toList))).host,
        (specPipeline (trim_http ("http://example.com:8888/index.html?a=123&b=456".toList))).port,
        (specPipeline (trim_http ("http://example.com:8888/index.html?a=123&b=456".toList))).path,
        (specPipeline (trim_http ("http://example.com:8888/index.html?a=123&b=456".toList))).searchpart⟩ :=
  c5_field_pipeline ("http://example.com:8888/index.html?a=123&b=456".toList) (by decide)

/-! ### HTML tokenizer (`saba_core_deprecated/src/renderer/html/token.rs`) -/

/-- Modelled from the spec: the `Attribute` helper of §4.2
(`renderer/html/attribute.rs` is not among the provided sources): a
name/value pair of strings, both initially empty, mutated only by appending
one character to the name side (`is_name = true`) or the value side. -/
structure Attribute where
  name : List Ch
  value : List Ch
deriving Repr, DecidableEq

def Attribute.new : Attribute := ⟨[], []⟩

def Attribute.add_char (a : Attribute) (c : Ch) (is_name : Bool) : Attribute :=
  if is_name then { a with name := a.name ++ [c] }
  else { a with value := a.value ++ [c] }

/-- `HtmlToken`: the four token shapes. -/
inductive HtmlToken where
  | StartTag (tag : List Ch) (self_closing : Bool) (attributes : List Attribute)
  | EndTag (tag : List Ch)
  | Char (c : Ch)
  | Eof
deriving Repr, DecidableEq

/-- The 18 named states of the tokenizer's `State` enum. -/
inductive State where
  | Data
  | TagOpen
  | EndTagOpen
  | TagName
  | BeforeAttributeName
  | AttributeName
  | AfterAttributeName
  | BeforeAttributeValue
  | AttributeValueDoubleQuoted
  | AttributeValueSingleQuoted
  | AttributeValueUnquoted
  | AfterAttributeValueQuoted
  | SelfClosingStartTag
  | ScriptData
  | ScriptDataLessThanSign
  | ScriptDataEndTagOpen
  | ScriptDataEndTagName
  | TemporaryBuffer
deriving Repr, DecidableEq

/-- The mutable tokenizer record. -/
structure HtmlTokenizer where
  state : State
  pos : Nat
  reconsume : Bool
  latest_token : Option HtmlToken
  input : List Ch
  buf : List Ch
deriving Repr, DecidableEq

/-- `HtmlTokenizer::new`. -/
def HtmlTokenizer.new (html : List Ch) : HtmlTokenizer :=
  { state := .Data
    pos := 0
    reconsume := false
    latest_token := none
    input := html
    buf := [] }

/-- The double-quote character. -/
def dquote : Ch := Char.ofNat 34

/-- The single-quote character. -/
def squote : Ch := Char.ofNat 39

/-- `HtmlTokenizer::is_eof`: the EOF predicate `pos > input.len()`. -/
def is_eof (t : HtmlTokenizer) : Bool := decide (t.input.length < t.pos)

/-- One read of the character-reading step: `reconsume_input` when the latch
is set (delivers `input[pos - 1]`, clears the latch, does not advance), else
`consume_next_input` (delivers `input[pos]` and advances).  `none` models the
Rust out-of-bounds panic (including the `pos - 1` underflow at `pos = 0`).
The middle component records whether the read consumed, and the position it
delivered. -/
def read1 (t : HtmlTokenizer) : Option (Ch × (Bool × Nat) × HtmlTokenizer) :=
  if t.reconsume then
    if t.pos = 0 then none
    else
      match t.input[t.pos - 1]? with
      | some c => some (c, (false, t.pos - 1), { t with reconsume := false })
      | none => none
  else
    match t.input[t.pos]? with
    | some c => some (c, (true, t.pos), { t with pos := t.pos + 1 })
    | none => none

/-- `HtmlTokenizer::create_tag`. -/
def create_tag (t : HtmlTokenizer) (start_tag_token : Bool) : HtmlTokenizer :=
  if start_tag_token then { t with latest_token := some (.StartTag [] false []) }
  else { t with latest_token := some (.EndTag []) }

/-- `HtmlTokenizer::append_tag_name`; `none` models the `assert!`/`panic!`
when `latest_token` is not a tag token. -/
def append_tag_name (t : HtmlTokenizer) (c : Ch) : Option HtmlTokenizer :=
  match t.latest_token with
  | some (.StartTag tag sc attrs) =>
    some { t with latest_token := some (.StartTag (tag ++ [c]) sc attrs) }
  | some (.EndTag tag) =>
    some { t with latest_token := some (.EndTag (tag ++ [c])) }
  | _ => none

/-- `HtmlTokenizer::take_latest_token`; `none` models the failed `assert!`
when no token is under construction. -/
def take_latest_token (t : HtmlTokenizer) : Option (HtmlToken × HtmlTokenizer) :=
  match t.latest_token with
  | some tok => some (tok, { t with latest_token := none })
  | none => none

/-- `HtmlTokenizer::start_new_attribute`; `none` models the `panic!` when the
current token is not a start tag. -/
def start_new_attribute (t : HtmlTokenizer) : Option HtmlTokenizer :=
  match t.latest_token with
  | some (.StartTag tag sc attrs) =>
    some { t with latest_token := some (.StartTag tag sc (attrs ++ [Attribute.new])) }
  | _ => none

/-- `HtmlTokenizer::append_attribute`; `none` models the `panic!` when the
current token is not a start tag and the `assert!(len > 0)`. -/
def append_attribute (t : HtmlTokenizer) (c : Ch) (is_name : Bool) : Option HtmlTokenizer :=
  match t.latest_token with
  | some (.StartTag tag sc attrs) =>
    match attrs.getLast? with
    | some a =>
      some
        { t with
          latest_token := some (.StartTag tag sc (attrs.dropLast ++ [a.add_char c is_name])) }
    | none => none
  | _ => none

/-- `HtmlTokenizer::set_self_closing_flag`; `none` models the `panic!` when
the current token is not a start tag. -/
def set_self_closing_flag (t : HtmlTokenizer) : Option HtmlTokenizer :=
  match t.latest_token with
  | some (.StartTag tag _ attrs) =>
    some { t with latest_token := some (.StartTag tag true attrs) }
  | _ => none

/-- Outcome of processing one read inside the `next` loop: return a token,
continue the loop, or hit a panic. -/
inductive StepResult where
  | emit (tok : HtmlToken) (t : HtmlTokenizer)
  | cont (t : HtmlTokenizer)
  | abort
deriving Repr, DecidableEq

/-- `self.state = X; return self.take_latest_token()`. -/
def emitLatest (t : HtmlTokenizer) : StepResult :=
  match take_latest_token t with
  | some (tok, t') => .emit tok t'
  | none => .abort

def handleData (c : Ch) (t : HtmlTokenizer) : StepResult :=
  if c = '<' then .cont { t with state := .TagOpen }
  else if is_eof t then .emit .Eof t
  else .emit (.Char c) t

def handleTagOpen (c : Ch) (t : HtmlTokenizer) : StepResult :=
  if c = '/' then .cont { t with state := .EndTagOpen }
  else if c.isAlpha then
    .cont (create_tag { t with reconsume := true, state := .TagName } true)
  else if is_eof t then .emit .Eof t
  else .cont { t with reconsume := true, state := .Data }

def handleEndTagOpen (c : Ch) (t : HtmlTokenizer) : StepResult :=
  if is_eof t then .emit .Eof t
  else if c.isAlpha then
    .cont (create_tag { t with reconsume := true, state := .TagName } false)
  else .cont t

def handleTagName (c : Ch) (t : HtmlTokenizer) : StepResult :=
  if c = ' ' then .cont { t with state := .BeforeAttributeName }
  else if c = '/' then .cont { t with state := .SelfClosingStartTag }
  else if c = '>' then emitLatest { t with state := .Data }
  else if c.isUpper then
    match append_tag_name t c.toLower with
    | some t' => .cont t'
    | none => .abort
  else if is_eof t then .emit .Eof t
  else
    match append_tag_name t c with
    | some t' => .cont t'
    | none => .abort

def handleBeforeAttributeName (c : Ch) (t : HtmlTokenizer) : StepResult :=
  if c = '/' ∨ c = '>' ∨ is_eof t = true then
    .cont { t with reconsume := true, state := .AfterAttributeName }
  else
    match start_new_attribute { t with reconsume := true, state := .AttributeName } with
    | some t' => .cont t'
    | none => .abort

def handleAttributeName (c : Ch) (t : HtmlTokenizer) : StepResult :=
  if c = ' ' ∨ c = '/' ∨ c = '>' ∨ is_eof t = true then
    .cont { t with reconsume := true, state := .AfterAttributeName }
  else if c = '=' then .cont { t with state := .BeforeAttributeValue }
  else if c.isUpper then
    match append_attribute t c.toLower true with
    | some t' => .cont t'
    | none => .abort
  else
    match append_attribute t c true with
    | some t' => .cont t'
    | none => .abort

def handleAfterAttributeName (c : Ch) (t : HtmlTokenizer) : StepResult :=
  if c = ' ' then .cont t
  else if c = '/' then .cont { t with state := .SelfClosingStartTag }
  else if c = '=' then .cont { t with state := .BeforeAttributeValue }
  else if c = '>' then emitLatest { t with state := .Data }
  else if is_eof t then .emit .Eof t
  else
    match start_new_attribute { t with reconsume := true, state := .AttributeName } with
    | some t' => .cont t'
    | none => .abort

def handleBeforeAttributeValue (c : Ch) (t : HtmlTokenizer) : StepResult :=
  if c = ' ' then .cont t
  else if c = dquote then .cont { t with state := .AttributeValueDoubleQuoted }
  else if c = squote then .cont { t with state := .AttributeValueSingleQuoted }
  else .cont { t with reconsume := true, state := .AttributeValueUnquoted }

def handleAttributeValueDoubleQuoted (c : Ch) (t : HtmlTokenizer) : StepResult :=
  if c = dquote then .cont { t with state := .AfterAttributeValueQuoted }
  else if is_eof t then .emit .Eof t
  else
    match append_attribute t c false with
    | some t' => .cont t'
    | none => .abort

def handleAttributeValueSingleQuoted (c : Ch) (t : HtmlTokenizer) : StepResult :=
  if c = squote then .cont { t with state := .AfterAttributeValueQuoted }
  else if is_eof t then .emit .Eof t
  else
    match append_attribute t c false with
    | some t' => .cont t'
    | none => .abort

def handleAttributeValueUnquoted (c : Ch) (t : HtmlTokenizer) : StepResult :=
  if c = ' ' then .cont { t with state := .BeforeAttributeName }
  else if c = '>' then emitLatest { t with state := .Data }
  else if is_eof t then .emit .Eof t
  else
    match append_attribute t c false with
    | some t' => .cont t'
    | none => .abort

def handleAfterAttributeValueQuoted (c : Ch) (t : HtmlTokenizer) : StepResult :=
  if c = ' ' then .cont { t with state := .BeforeAttributeName }
  else if c = '/' then .cont { t with state := .SelfClosingStartTag }
  else if c = '>' then emitLatest { t with state := .Data }
  else if is_eof t then .emit .Eof t
  else .cont { t with reconsume := true, state := .BeforeAttributeValue }

def handleSelfClosingStartTag (c : Ch) (t : HtmlTokenizer) : StepResult :=
  if c = '>' then
    match set_self_closing_flag t with
    | some t' => emitLatest { t' with state := .Data }
    | none => .abort
  else if is_eof t then .emit .Eof t
  else .cont t

def handleScriptData (c : Ch) (t : HtmlTokenizer) : StepResult :=
  if c = '<' then .cont { t with state := .ScriptDataLessThanSign }
  else if is_eof t then .emit .Eof t
  else .emit (.Char c) t

def handleScriptDataLessThanSign (c : Ch) (t : HtmlTokenizer) : StepResult :=
  if c = '/' then .cont { t with buf := [], state := .ScriptDataEndTagOpen }
  else .emit (.Char '<') { t with reconsume := true, state := .ScriptData }

def handleScriptDataEndTagOpen (c : Ch) (t : HtmlTokenizer) : StepResult :=
  if c.isAlpha then
    .cont (create_tag { t with reconsume := true, state := .ScriptDataEndTagName } false)
  else .emit (.Char '<') { t with reconsume := true, state := .ScriptData }

def handleScriptDataEndTagName (c : Ch) (t : HtmlTokenizer) : StepResult :=
  if c = '>' then emitLatest { t with state := .Data }
  else if c.isAlpha then
    match append_tag_name { t with buf := t.buf ++ [c] } c.toLower with
    | some t' => .cont t'
    | none => .abort
  else .cont { t with state := .TemporaryBuffer, buf := '<' :: '/' :: (t.buf ++ [c]) }

def handleTemporaryBuffer (_c : Ch) (t : HtmlTokenizer) : StepResult :=
  match t.buf with
  | [] => .cont { t with reconsume := true, state := .ScriptData }
  | c0 :: rest => .emit (.Char c0) { t with reconsume := true, buf := rest }

/-- Dispatch of the big `match self.state` in `Iterator::next`. -/
def handle (c : Ch) (t : HtmlTokenizer) : StepResult :=
  match t.state with
  | .Data => handleData c t
  | .TagOpen => handleTagOpen c t
  | .EndTagOpen => handleEndTagOpen c t
  | .TagName => handleTagName c t
  | .BeforeAttributeName => handleBeforeAttributeName c t
  | .AttributeName => handleAttributeName c t
  | .AfterAttributeName => handleAfterAttributeName c t
  | .BeforeAttributeValue => handleBeforeAttributeValue c t
  | .AttributeValueDoubleQuoted => handleAttributeValueDoubleQuoted c t
  | .AttributeValueSingleQuoted => handleAttributeValueSingleQuoted c t
  | .AttributeValueUnquoted => handleAttributeValueUnquoted c t
  | .AfterAttributeValueQuoted => handleAfterAttributeValueQuoted c t
  | .SelfClosingStartTag => handleSelfClosingStartTag c t
  | .ScriptData => handleScriptData c t
  | .ScriptDataLessThanSign => handleScriptDataLessThanSign c t
  | .ScriptDataEndTagOpen => handleScriptDataEndTagOpen c t
  | .ScriptDataEndTagName => handleScriptDataEndTagName c t
  | .TemporaryBuffer => handleTemporaryBuffer c t

/-- One iteration of the `loop` body: read one character, then process it. -/
def step1 (t : HtmlTokenizer) : StepResult :=
  match read1 t with
  | none => .abort
  | some (c, _, t') => handle c t'

/-- Outcome of one pull (`Iterator::next`). -/
inductive NextResult where
  | tok (tok : HtmlToken) (t : HtmlTokenizer)
  | finished
  | aborted
  | outOfFuel
deriving Repr, DecidableEq

/-- The `loop` of `next`, bounded by fuel. -/
def nextAux : Nat → HtmlTokenizer → NextResult
  | 0, _ => .outOfFuel
  | n + 1, t =>
    match step1 t with
    | .emit tok t' => .tok tok t'
    | .cont t' => nextAux n t'
    | .abort => .aborted

/-- `Iterator::next`: end of stream when `pos ≥ input.len()` at pull start,
else run the loop. -/
def next (fuel : Nat) (t : HtmlTokenizer) : NextResult :=
  if t.input.length ≤ t.pos then .finished else nextAux fuel t

/-- Outcome of pulling the tokenizer to exhaustion. -/
inductive RunResult where
  | ok (toks : List HtmlToken)
  | aborted (toks : List HtmlToken)
  | outOfFuel
deriving Repr, DecidableEq

/-- Pull repeatedly, collecting the emitted tokens. -/
def runAux : Nat → Nat → HtmlTokenizer → RunResult
  | 0, _, _ => .outOfFuel
  | pulls + 1, fuel, t =>
    match next fuel t with
    | .finished => .ok []
    | .aborted => .aborted []
    | .outOfFuel => .outOfFuel
    | .tok tok t' =>
      match runAux pulls fuel t' with
      | .ok toks => .ok (tok :: toks)
      | .aborted toks => .aborted (tok :: toks)
      | .outOfFuel => .outOfFuel

/-- Construct a tokenizer on `html` and pull it to exhaustion. -/
def tokenize (fuel : Nat) (html : List Ch) : RunResult :=
  runAux fuel fuel (HtmlTokenizer.new html)

/-! Event-traced copies of the pull loop, recording for every read whether it
consumed and which position it delivered; used by the reconsume claims. -/

def nextAuxEv : Nat → HtmlTokenizer → List (Bool × Nat) × NextResult
  | 0, _ => ([], .outOfFuel)
  | n + 1, t =>
    match read1 t with
    | none => ([], .aborted)
    | some (c, ev, t') =>
      match handle c t' with
      | .emit tok t2 => ([ev], .tok tok t2)
      | .cont t2 =>
        let r := nextAuxEv n t2
        (ev :: r.1, r.2)
      | .abort => ([ev], .aborted)

def nextEv (fuel : Nat) (t : HtmlTokenizer) : List (Bool × Nat) × NextResult :=
  if t.input.length ≤ t.pos then ([], .finished) else nextAuxEv fuel t

def runEvAux : Nat → Nat → HtmlTokenizer → List (Bool × Nat)
  | 0, _, _ => []
  | pulls + 1, fuel, t =>
    match nextEv fuel t with
    | (evs, .tok _ t') => evs ++ runEvAux pulls fuel t'
    | (evs, _) => evs

/-- All read events of a full run on `html`. -/
def readTrace (fuel : Nat) (html : List Ch) : List (Bool × Nat) :=
  runEvAux fuel fuel (HtmlTokenizer.new html)

/-- The positions delivered by the consuming (position-advancing) reads. -/
def consumesOf (evs : List (Bool × Nat)) : List Nat :=
  evs.filterMap (fun e => if e.1 then some e.2 else none)

/-! Sanity examples matching the spec's §8 tokenizer scenarios. -/

example :
    tokenize 100 ("<html></html>".toList) =
      .ok [.StartTag ("html".toList) false [], .EndTag ("html".toList)] := by
  decide

example :
    tokenize 100 ("hi<b>X</b>".toList) =
      .ok [.Char 'h', .Char 'i', .StartTag ("b".toList) false [],
        .Char 'X', .EndTag ("b".toList)] := by
  decide

example :
    tokenize 100 ("<A Href=\"x\">".toList) =
      .ok [.StartTag ("a".toList) false [⟨"href".toList, "x".toList⟩]] := by
  decide

/-! ### Concrete tokenizer claims -/

/-- C1 fails on the code: on the printable-ASCII input `"<"` the first pull
consumes the final `<`, transitions to `TagOpen`, and the following loop
iteration's `consume_next_input` indexes `input[pos]` at `pos = len`, an
out-of-bounds panic.  The per-state EOF branches never save it because the
EOF predicate is `pos > len`. -/
theorem c1_oob_panic : tokenize 100 ("<".toList) = RunResult.aborted [] := by decide

/-- C2 fails as stated: the `AttributeValueUnquoted` state has no `/` branch,
so the `/` before `>` is appended to the attribute value and the token is not
self-closing. -/
theorem c2_counterexample :
    ¬ (tokenize 100 ("<img src=/logo.png/>".toList) =
        RunResult.ok
          [HtmlToken.StartTag ("img".toList) true [⟨"src".toList, "/logo.png".toList⟩]]) := by
  decide

/-- C2 amended: pulling all tokens on `<img src=/logo.png/>` yields exactly
one token, a StartTag with tag `img`, `self_closing = false`, and attribute
list `[("src", "/logo.png/")]`, followed by end of stream. -/
theorem c2_img_unquoted :
    tokenize 100 ("<img src=/logo.png/>".toList) =
      RunResult.ok
        [HtmlToken.StartTag ("img".toList) false [⟨"src".toList, "/logo.png/".toList⟩]] := by
  decide

/-- A tokenizer whose state was forced to `ScriptData` by the
tree-construction layer (spec §6). -/
def scriptStart (html : List Ch) : HtmlTokenizer :=
  { HtmlTokenizer.new html with state := .ScriptData }

/-- C8: with the state forced to `ScriptData`, the input `alert(1)</script>`
tokenizes to the eight character tokens of `alert(1)` followed by
`EndTag("script")` and end of stream. -/
theorem c8_script_data :
    runAux 100 100 (scriptStart ("alert(1)</script>".toList)) =
      RunResult.ok
        [.Char 'a', .Char 'l', .Char 'e', .Char 'r', .Char 't', .Char '(',
         .Char '1', .Char ')', .EndTag ("script".toList)] := by
  decide

/-- C6 fails as stated: on `<a  b>` (two spaces) the space at position 3 is
delivered by three consecutive reads — consumed in `BeforeAttributeName`,
reconsumed in `AttributeName`, and reconsumed again in `AfterAttributeName`. -/
theorem c6_counterexample :
    (readTrace 100 ("<a  b>".toList))[4]? = some (true, 3)
    ∧ (readTrace 100 ("<a  b>".toList))[5]? = some (false, 3)
    ∧ (readTrace 100 ("<a  b>".toList))[6]? = some (false, 3) := by
  decide

/-! ### Character-class facts -/

theorem uint32_le_iff (a b : UInt32) : a ≤ b ↔ a.toNat ≤ b.toNat := Iff.rfl

theorem isUpper_iff (c : Ch) : c.isUpper = true ↔ 65 ≤ c.toNat ∧ c.toNat ≤ 90 := by
  unfold Char.isUpper
  rw [Bool.and_eq_true, decide_eq_true_iff, decide_eq_true_iff]
  have h65 : (65 : UInt32).toNat = 65 := by decide
  have h90 : (90 : UInt32).toNat = 90 := by decide
  rw [ge_iff_le, uint32_le_iff, uint32_le_iff, h65, h90]
  exact Iff.rfl

theorem char_toNat_ofNat_valid (n : Nat) (h : n.isValidChar) : (Char.ofNat n).toNat = n := by
  unfold Char.ofNat
  rw [dif_pos h]
  rfl

/-- Lower-casing never produces an ASCII uppercase letter. -/
theorem toLower_not_upper (c : Ch) : (Char.toLower c).isUpper = false := by
  rw [← Bool.not_eq_true, isUpper_iff]
  show ¬(65 ≤ (if c.toNat ≥ 65 ∧ c.toNat ≤ 90 then Char.ofNat (c.toNat + 32) else c).toNat
      ∧ (if c.toNat ≥ 65 ∧ c.toNat ≤ 90 then Char.ofNat (c.toNat + 32) else c).toNat ≤ 90)
  by_cases hc : c.toNat ≥ 65 ∧ c.toNat ≤ 90
  · rw [if_pos hc, char_toNat_ofNat_valid (c.toNat + 32) (Or.inl (by omega))]
    omega
  · rw [if_neg hc]
    omega

/-! ### Frame lemmas for the tokenizer helpers -/

theorem take_latest_token_some {t : HtmlTokenizer} {tok : HtmlToken} {t' : HtmlTokenizer}
    (h : take_latest_token t = some (tok, t')) :
    t.latest_token = some tok ∧ t' = { t with latest_token := none } := by
  unfold take_latest_token at h
  cases hl : t.latest_token with
  | none => rw [hl] at h; cases h
  | some tk =>
    rw [hl] at h
    injection h with h2
    injection h2 with ha hb
    subst ha
    exact ⟨rfl, hb.symm⟩

theorem append_tag_name_some {t : HtmlTokenizer} {c : Ch} {t' : HtmlTokenizer}
    (h : append_tag_name t c = some t') :
    (∃ tag sc attrs, t.latest_token = some (.StartTag tag sc attrs)
      ∧ t' = { t with latest_token := some (.StartTag (tag ++ [c]) sc attrs) })
    ∨ (∃ tag, t.latest_token = some (.EndTag tag)
      ∧ t' = { t with latest_token := some (.EndTag (tag ++ [c])) }) := by
  unfold append_tag_name at h
  cases hl : t.latest_token with
  | none => rw [hl] at h; cases h
  | some tk =>
    rw [hl] at h
    cases tk with
    | StartTag tag sc attrs => exact Or.inl ⟨tag, sc, attrs, rfl, (Option.some.inj h).symm⟩
    | EndTag tag => exact Or.inr ⟨tag, rfl, (Option.some.inj h).symm⟩
    | Char c0 => cases h
    | Eof => cases h

theorem start_new_attribute_some {t : HtmlTokenizer} {t' : HtmlTokenizer}
    (h : start_new_attribute t = some t') :
    ∃ tag sc attrs, t.latest_token = some (.StartTag tag sc attrs)
      ∧ t' = { t with latest_token := some (.StartTag tag sc (attrs ++ [Attribute.new])) } := by
  unfold start_new_attribute at h
  cases hl : t.latest_token with
  | none => rw [hl] at h; cases h
  | some tk =>
    rw [hl] at h
    cases tk with
    | StartTag tag sc attrs => exact ⟨tag, sc, attrs, rfl, (Option.some.inj h).symm⟩
    | EndTag tag => cases h
    | Char c0 => cases h
    | Eof => cases h

theorem append_attribute_some {t : HtmlTokenizer} {c : Ch} {b : Bool} {t' : HtmlTokenizer}
    (h : append_attribute t c b = some t') :
    ∃ tag sc attrs a, t.latest_token = some (.StartTag tag sc attrs)
      ∧ attrs.getLast? = some a
      ∧ t' = { t with
          latest_token := some (.StartTag tag sc (attrs.dropLast ++ [a.add_char c b])) } := by
  unfold append_attribute at h
  split at h
  · rename_i tag sc attrs hlat
    split at h
    · rename_i a ha
      exact ⟨tag, sc, attrs, a, hlat, ha, (Option.some.inj h).symm⟩
    · cases h
  · cases h

theorem set_self_closing_flag_some {t : HtmlTokenizer} {t' : HtmlTokenizer}
    (h : set_self_closing_flag t = some t') :
    ∃ tag sc attrs, t.latest_token = some (.StartTag tag sc attrs)
      ∧ t' = { t with latest_token := some (.StartTag tag true attrs) } := by
  unfold set_self_closing_flag at h
  cases hl : t.latest_token with
  | none => rw [hl] at h; cases h
  | some tk =>
    rw [hl] at h
    cases tk with
    | StartTag tag sc attrs => exact ⟨tag, sc, attrs, rfl, (Option.some.inj h).symm⟩
    | EndTag tag => cases h
    | Char c0 => cases h
    | Eof => cases h

/-! ### Position discipline of the handlers (reconsume claims) -/

/-- The tokenizer produced by a step outcome has read position `p`. -/
def stepPos (p : Nat) : StepResult → Prop
  | .emit _ t' => t'.pos = p
  | .cont t' => t'.pos = p
  | .abort => True

theorem append_tag_name_pos {t : HtmlTokenizer} {c : Ch} {t' : HtmlTokenizer}
    (h : append_tag_name t c = some t') : t'.pos = t.pos := by
  rcases append_tag_name_some h with ⟨_, _, _, _, ht'⟩ | ⟨_, _, ht'⟩ <;> (subst ht'; rfl)

theorem append_attribute_pos {t : HtmlTokenizer} {c : Ch} {b : Bool} {t' : HtmlTokenizer}
    (h : append_attribute t c b = some t') : t'.pos = t.pos := by
  obtain ⟨_, _, _, _, _, _, ht'⟩ := append_attribute_some h
  subst ht'; rfl

theorem start_new_attribute_pos {t : HtmlTokenizer} {t' : HtmlTokenizer}
    (h : start_new_attribute t = some t') : t'.pos = t.pos := by
  obtain ⟨_, _, _, _, ht'⟩ := start_new_attribute_some h
  subst ht'; rfl

theorem emitLatest_pos (t : HtmlTokenizer) : stepPos t.pos (emitLatest t) := by
  unfold emitLatest
  cases he : take_latest_token t with
  | none => exact trivial
  | some x =>
    obtain ⟨tok, t2⟩ := x
    obtain ⟨-, h2⟩ := take_latest_token_some he
    subst h2
    exact rfl

/-- No handler moves the read position: state transitions, token building and
emission leave `pos` untouched; only the reads advance it. -/
theorem handle_pos (c : Ch) (t : HtmlTokenizer) : stepPos t.pos (handle c t) := by
  unfold handle
  cases ht : t.state
  case Data =>
    unfold handleData
    split_ifs <;> exact rfl
  case TagOpen =>
    unfold handleTagOpen
    split_ifs <;> exact rfl
  case EndTagOpen =>
    unfold handleEndTagOpen
    split_ifs <;> exact rfl
  case TagName =>
    unfold handleTagName
    split_ifs
    · exact rfl
    · exact rfl
    · exact emitLatest_pos _
    · cases ha : append_tag_name t (Char.toLower c) with
      | none => exact trivial
      | some t' => exact append_tag_name_pos ha
    · exact rfl
    · cases ha : append_tag_name t c with
      | none => exact trivial
      | some t' => exact append_tag_name_pos ha
  case BeforeAttributeName =>
    unfold handleBeforeAttributeName
    split_ifs
    · exact rfl
    · cases ha : start_new_attribute { t with reconsume := true, state := State.AttributeName } with
      | none => exact trivial
      | some t' =>
        exact start_new_attribute_pos
          (t := { t with reconsume := true, state := State.AttributeName }) ha
  case AttributeName =>
    unfold handleAttributeName
    split_ifs
    · exact rfl
    · exact rfl
    · cases ha : append_attribute t (Char.toLower c) true with
      | none => exact trivial
      | some t' => exact append_attribute_pos ha
    · cases ha : append_attribute t c true with
      | none => exact trivial
      | some t' => exact append_attribute_pos ha
  case AfterAttributeName =>
    unfold handleAfterAttributeName
    split_ifs
    · exact rfl
    · exact rfl
    · exact rfl
    · exact emitLatest_pos _
    · exact rfl
    · cases ha : start_new_attribute { t with reconsume := true, state := State.AttributeName } with
      | none => exact trivial
      | some t' =>
        exact start_new_attribute_pos
          (t := { t with reconsume := true, state := State.AttributeName }) ha
  case BeforeAttributeValue =>
    unfold handleBeforeAttributeValue
    split_ifs <;> exact rfl
  case AttributeValueDoubleQuoted =>
    unfold handleAttributeValueDoubleQuoted
    split_ifs
    · exact rfl
    · exact rfl
    · cases ha : append_attribute t c false with
      | none => exact trivial
      | some t' => exact append_attribute_pos ha
  case AttributeValueSingleQuoted =>
    unfold handleAttributeValueSingleQuoted
    split_ifs
    · exact rfl
    · exact rfl
    · cases ha : append_attribute t c false with
      | none => exact trivial
      | some t' => exact append_attribute_pos ha
  case AttributeValueUnquoted =>
    unfold handleAttributeValueUnquoted
    split_ifs
    · exact rfl
    · exact emitLatest_pos _
    · exact rfl
    · cases ha : append_attribute t c false with
      | none => exact trivial
      | some t' => exact append_attribute_pos ha
  case AfterAttributeValueQuoted =>
    unfold handleAfterAttributeValueQuoted
    split_ifs
    · exact rfl
    · exact rfl
    · exact emitLatest_pos _
    · exact rfl
    · exact rfl
  case SelfClosingStartTag =>
    unfold handleSelfClosingStartTag
    split_ifs
    · cases hs : set_self_closing_flag t with
      | none => exact trivial
      | some t1 =>
        obtain ⟨tg, sc, ats, hlat, ht1⟩ := set_self_closing_flag_some hs
        subst ht1
        exact emitLatest_pos
          { t with state := State.Data, latest_token := some (HtmlToken.StartTag tg true ats) }
    · exact rfl
    · exact rfl
  case ScriptData =>
    unfold handleScriptData
    split_ifs <;> exact rfl
  case ScriptDataLessThanSign =>
    unfold handleScriptDataLessThanSign
    split_ifs <;> exact rfl
  case ScriptDataEndTagOpen =>
    unfold handleScriptDataEndTagOpen
    split_ifs <;> exact rfl
  case ScriptDataEndTagName =>
    unfold handleScriptDataEndTagName
    split_ifs
    · exact emitLatest_pos _
    · cases ha : append_tag_name { t with buf := t.buf ++ [c] } (Char.toLower c) with
      | none => exact trivial
      | some t' =>
        exact append_tag_name_pos (t := { t with buf := t.buf ++ [c] }) ha
    · exact rfl
  case TemporaryBuffer =>
    unfold handleTemporaryBuffer
    cases t.buf <;> exact rfl

/-- Shape of a successful read: a consuming read delivers `pos` and advances
to `pos + 1`; a reconsuming read leaves `pos` unchanged. -/
theorem read1_cases {t : HtmlTokenizer} {c : Ch} {ev : Bool × Nat} {t1 : HtmlTokenizer}
    (h : read1 t = some (c, ev, t1)) :
    (ev = (true, t.pos) ∧ t1.pos = t.pos + 1) ∨ (ev.1 = false ∧ t1.pos = t.pos) := by
  unfold read1 at h
  split at h
  · split at h
    · cases h
    · split at h
      · simp only [Option.some.injEq, Prod.mk.injEq] at h
        obtain ⟨-, ⟨hev, ht1⟩⟩ := h
        right
        rw [← hev, ← ht1]
        exact ⟨rfl, rfl⟩
      · cases h
  · split at h
    · simp only [Option.some.injEq, Prod.mk.injEq] at h
      obtain ⟨-, ⟨hev, ht1⟩⟩ := h
      left
      rw [← hev, ← ht1]
      exact ⟨rfl, rfl⟩
    · cases h

theorem consumesOf_nil : consumesOf [] = [] := rfl

theorem consumesOf_cons (e : Bool × Nat) (l : List (Bool × Nat)) :
    consumesOf (e :: l) = if e.1 then e.2 :: consumesOf l else consumesOf l := by
  unfold consumesOf
  rw [List.filterMap_cons]
  by_cases hb : e.1
  · rw [if_pos hb, if_pos hb]
  · rw [if_neg hb, if_neg hb]

theorem consumesOf_append (l1 l2 : List (Bool × Nat)) :
    consumesOf (l1 ++ l2) = consumesOf l1 ++ consumesOf l2 := by
  unfold consumesOf
  exact List.filterMap_append l1 l2 _

/-- Within one pull: the consuming reads deliver strictly increasing
positions, all at least the starting position, and an emitted-token result
has advanced past every consumed position. -/
theorem nextAuxEv_mono : ∀ (fuel : Nat) (t : HtmlTokenizer),
    List.Pairwise (· < ·) (consumesOf (nextAuxEv fuel t).1)
    ∧ (∀ p ∈ consumesOf (nextAuxEv fuel t).1, t.pos ≤ p)
    ∧ (∀ tok t2, (nextAuxEv fuel t).2 = NextResult.tok tok t2 →
        t.pos ≤ t2.pos ∧ ∀ p ∈ consumesOf (nextAuxEv fuel t).1, p < t2.pos) := by
  intro fuel
  induction fuel with
  | zero =>
    intro t
    refine ⟨List.Pairwise.nil, ?_, ?_⟩
    · intro p hp
      simp [nextAuxEv, consumesOf] at hp
    · intro tok t2 h
      simp [nextAuxEv] at h
  | succ n ih =>
    intro t
    cases hr : read1 t with
    | none =>
      have he : nextAuxEv (n + 1) t = ([], .aborted) := by
        simp [nextAuxEv, hr]
      rw [he]
      refine ⟨List.Pairwise.nil, ?_, ?_⟩
      · intro p hp
        simp [consumesOf] at hp
      · intro tok t2 h
        simp at h
    | some x =>
      obtain ⟨c, ev, t1⟩ := x
      have hpos2 := handle_pos c t1
      cases hh : handle c t1 with
      | emit tok t2 =>
        rw [hh] at hpos2
        have he : nextAuxEv (n + 1) t = ([ev], .tok tok t2) := by
          simp [nextAuxEv, hr, hh]
        rw [he]
        rcases read1_cases hr with ⟨hev, hp1⟩ | ⟨hev, hp1⟩
        · subst hev
          have hc1 : consumesOf [((true : Bool), t.pos)] = [t.pos] := rfl
          rw [hc1]
          refine ⟨List.pairwise_singleton _ _, ?_, ?_⟩
          · intro p hp
            rw [List.mem_singleton] at hp
            omega
          · intro tok' t2' h
            injection h with h1 h2
            subst h2
            have : t2.pos = t.pos + 1 := by rw [hpos2, hp1]
            constructor
            · omega
            · intro p hp
              rw [List.mem_singleton] at hp
              omega
        · have hc0 : consumesOf [ev] = [] := by
            rw [consumesOf_cons, if_neg (by rw [hev]; exact Bool.false_ne_true)]
            rfl
          rw [hc0]
          refine ⟨List.Pairwise.nil, ?_, ?_⟩
          · intro p hp
            cases hp
          · intro tok' t2' h
            injection h with h1 h2
            subst h2
            constructor
            · rw [hpos2, hp1]
            · intro p hp
              cases hp
      | cont t2 =>
        rw [hh] at hpos2
        have he1 : (nextAuxEv (n + 1) t).1 = ev :: (nextAuxEv n t2).1 := by
          simp [nextAuxEv, hr, hh]
        have he2 : (nextAuxEv (n + 1) t).2 = (nextAuxEv n t2).2 := by
          simp [nextAuxEv, hr, hh]
        obtain ⟨ihP, ihGe, ihTok⟩ := ih t2
        rw [he1, he2]
        rcases read1_cases hr with ⟨hev, hp1⟩ | ⟨hev, hp1⟩
        · subst hev
          have ht2pos : t2.pos = t.pos + 1 := by rw [hpos2, hp1]
          have hc1 : consumesOf (((true : Bool), t.pos) :: (nextAuxEv n t2).1)
              = t.pos :: consumesOf (nextAuxEv n t2).1 := by
            rw [consumesOf_cons, if_pos rfl]
          rw [hc1]
          refine ⟨?_, ?_, ?_⟩
          · refine List.pairwise_cons.mpr ⟨?_, ihP⟩
            intro q hq
            have := ihGe q hq
            omega
          · intro p hp
            rcases List.mem_cons.mp hp with h | h
            · omega
            · have := ihGe p h
              omega
          · intro tok' t2' h
            obtain ⟨hle, hlt⟩ := ihTok tok' t2' h
            constructor
            · omega
            · intro p hp
              rcases List.mem_cons.mp hp with h1 | h1
              · subst h1
                omega
              · exact hlt p h1
        · have ht2pos : t2.pos = t.pos := by rw [hpos2, hp1]
          have hc1 : consumesOf (ev :: (nextAuxEv n t2).1) = consumesOf (nextAuxEv n t2).1 := by
            rw [consumesOf_cons, if_neg (by rw [hev]; exact Bool.false_ne_true)]
          rw [hc1]
          refine ⟨ihP, ?_, ?_⟩
          · intro p hp
            have := ihGe p hp
            omega
          · intro tok' t2' h
            obtain ⟨hle, hlt⟩ := ihTok tok' t2' h
            exact ⟨by omega, hlt⟩
      | abort =>
        have he : nextAuxEv (n + 1) t = ([ev], .aborted) := by
          simp [nextAuxEv, hr, hh]
        rw [he]
        refine ⟨?_, ?_, ?_⟩
        · by_cases hb : ev.1 = true <;>
            simp [consumesOf_cons, hb, consumesOf_nil, List.pairwise_singleton]
        · intro p hp
          rcases read1_cases hr with ⟨hev, -⟩ | ⟨hev, -⟩
          · subst hev
            have hc1 : consumesOf [((true : Bool), t.pos)] = [t.pos] := rfl
            rw [hc1, List.mem_singleton] at hp
            omega
          · rw [consumesOf_cons, if_neg (by rw [hev]; exact Bool.false_ne_true)] at hp
            cases hp
        · intro tok t2 h
          simp at h

theorem runEvAux_succ (n fuel : Nat) (t : HtmlTokenizer) :
    runEvAux (n + 1) fuel t =
      (match nextEv fuel t with
        | (evs, NextResult.tok _ t') => evs ++ runEvAux n fuel t'
        | (evs, _) => evs) := rfl

/-- Across the whole run: consumed positions stay strictly increasing. -/
theorem runEvAux_mono : ∀ (pulls fuel : Nat) (t : HtmlTokenizer),
    List.Pairwise (· < ·) (consumesOf (runEvAux pulls fuel t))
    ∧ ∀ p ∈ consumesOf (runEvAux pulls fuel t), t.pos ≤ p := by
  intro pulls
  induction pulls with
  | zero =>
    intro fuel t
    refine ⟨List.Pairwise.nil, ?_⟩
    intro p hp
    simp [runEvAux, consumesOf] at hp
  | succ n ih =>
    intro fuel t
    by_cases hend : t.input.length ≤ t.pos
    · have he : nextEv fuel t = ([], .finished) := by
        simp [nextEv, hend]
      have he2 : runEvAux (n + 1) fuel t = [] := by
        rw [runEvAux_succ, he]
      rw [he2]
      refine ⟨List.Pairwise.nil, ?_⟩
      intro p hp
      cases hp
    · have he : nextEv fuel t = nextAuxEv fuel t := by
        simp [nextEv, hend]
      obtain ⟨hP, hGe, hTok⟩ := nextAuxEv_mono fuel t
      cases hres : (nextAuxEv fuel t).2 with
      | tok tok t' =>
        have hpair : nextAuxEv fuel t = ((nextAuxEv fuel t).1, NextResult.tok tok t') := by
          rw [← hres]
        have he2 : runEvAux (n + 1) fuel t = (nextAuxEv fuel t).1 ++ runEvAux n fuel t' := by
          rw [runEvAux_succ, he, hpair]
        rw [he2, consumesOf_append]
        obtain ⟨ihP, ihGe⟩ := ih fuel t'
        obtain ⟨hle, hlt⟩ := hTok tok t' hres
        constructor
        · refine List.pairwise_append.mpr ⟨hP, ihP, ?_⟩
          intro a ha b hb
          have h1 := hlt a ha
          have h2 := ihGe b hb
          omega
        · intro p hp
          rcases List.mem_append.mp hp with h | h
          · exact hGe p h
          · have := ihGe p h
            omega
      | finished =>
        have hpair : nextAuxEv fuel t = ((nextAuxEv fuel t).1, NextResult.finished) := by
          rw [← hres]
        have he2 : runEvAux (n + 1) fuel t = (nextAuxEv fuel t).1 := by
          rw [runEvAux_succ, he, hpair]
        rw [he2]
        exact ⟨hP, hGe⟩
      | aborted =>
        have hpair : nextAuxEv fuel t = ((nextAuxEv fuel t).1, NextResult.aborted) := by
          rw [← hres]
        have he2 : runEvAux (n + 1) fuel t = (nextAuxEv fuel t).1 := by
          rw [runEvAux_succ, he, hpair]
        rw [he2]
        exact ⟨hP, hGe⟩
      | outOfFuel =>
        have hpair : nextAuxEv fuel t = ((nextAuxEv fuel t).1, NextResult.outOfFuel) := by
          rw [← hres]
        have he2 : runEvAux (n + 1) fuel t = (nextAuxEv fuel t).1 := by
          rw [runEvAux_succ, he, hpair]
        rw [he2]
        exact ⟨hP, hGe⟩

/-- C6 amended: a read either consumes the character at `pos` (advancing) or
re-delivers the one at `pos - 1` via the latch without advancing, so the
positions of the consuming reads of a run are strictly increasing — no input
position is ever consumed twice.  The latch can, however, make the same
character be *delivered* by three (or more) consecutive reads
(`c6_counterexample`). -/
theorem c6_consume_monotone (fuel : Nat) (html : List Ch) :
    List.Pairwise (· < ·) (consumesOf (readTrace fuel html)) :=
  (runEvAux_mono fuel fuel (HtmlTokenizer.new html)).1

/-! ### Reachable-state invariant (token-shape claims) -/

/-- No ASCII uppercase letter occurs in `l`. -/
def NoUpper (l : List Ch) : Prop := ∀ c ∈ l, c.isUpper = false

/-- The pending-append condition excusing an empty tag name: the latch is
set, the state is one of the two name-accumulating states, and the character
about to be reconsumed is ASCII alphabetic, so the next read appends it. -/
def Pending (t : HtmlTokenizer) : Prop :=
  t.reconsume = true
  ∧ (t.state = State.TagName ∨ t.state = State.ScriptDataEndTagName)
  ∧ ∃ d, t.input[t.pos - 1]? = some d ∧ d.isAlpha = true

/-- Well-formedness of the token under construction, generic in the
condition `pend` excusing an empty tag name: tag and attribute names are
uppercase-free, attribute-value characters come from `inp`, and the token is
never a `Char` or `Eof`. -/
def LatestOkC (L : Option HtmlToken) (inp : List Ch) (pend : Prop) : Prop :=
  match L with
  | none => True
  | some (.StartTag tag _ attrs) =>
      NoUpper tag ∧ (tag = [] → pend)
      ∧ (∀ a ∈ attrs, NoUpper a.name)
      ∧ (∀ a ∈ attrs, ∀ d ∈ a.value, d ∈ inp)
  | some (.EndTag tag) => NoUpper tag ∧ (tag = [] → pend)
  | some (.Char _) => False
  | some .Eof => False

/-- The inductive invariant of reachable tokenizer states. -/
structure Inv (t : HtmlTokenizer) : Prop where
  pos_le : t.pos ≤ t.input.length
  latest_ok : LatestOkC t.latest_token t.input (Pending t)
  buf_mem : ∀ d ∈ t.buf, d ∈ t.input
  lt_mem : t.state = State.ScriptDataLessThanSign ∨ t.state = State.ScriptDataEndTagOpen
      ∨ t.state = State.ScriptDataEndTagName → ('<' : Ch) ∈ t.input
  slash_mem : t.state = State.ScriptDataEndTagOpen ∨ t.state = State.ScriptDataEndTagName
      → ('/' : Ch) ∈ t.input

/-- What a successful read delivering `c` guarantees about the tokenizer the
handler then runs on. -/
structure ReadInv (c : Ch) (t : HtmlTokenizer) : Prop where
  pos_le : t.pos ≤ t.input.length
  pos_pos : 1 ≤ t.pos
  cur : t.input[t.pos - 1]? = some c
  latest_ok : LatestOkC t.latest_token t.input
      ((t.state = State.TagName ∨ t.state = State.ScriptDataEndTagName) ∧ c.isAlpha = true)
  buf_mem : ∀ d ∈ t.buf, d ∈ t.input
  lt_mem : t.state = State.ScriptDataLessThanSign ∨ t.state = State.ScriptDataEndTagOpen
      ∨ t.state = State.ScriptDataEndTagName → ('<' : Ch) ∈ t.input
  slash_mem : t.state = State.ScriptDataEndTagOpen ∨ t.state = State.ScriptDataEndTagName
      → ('/' : Ch) ∈ t.input

/-- Contract of every emitted token: tag tokens have non-empty, lower-cased
names with lower-cased attribute names and input-derived attribute values;
character tokens carry a character of the input; `Eof` is never emitted. -/
def EmitOk (tok : HtmlToken) (inp : List Ch) : Prop :=
  match tok with
  | .StartTag tag _ attrs => tag ≠ [] ∧ NoUpper tag ∧ (∀ a ∈ attrs, NoUpper a.name)
      ∧ (∀ a ∈ attrs, ∀ d ∈ a.value, d ∈ inp)
  | .EndTag tag => tag ≠ [] ∧ NoUpper tag
  | .Char c => c ∈ inp
  | .Eof => False

/-- Soundness statement for one loop-body outcome. -/
def StepInv (inp : List Ch) : StepResult → Prop
  | .cont t' => Inv t' ∧ t'.input = inp
  | .emit tok t' => Inv t' ∧ t'.input = inp ∧ EmitOk tok inp
  | .abort => True

theorem latestOkC_mono {L : Option HtmlToken} {inp : List Ch} {p q : Prop} (hpq : p → q) :
    LatestOkC L inp p → LatestOkC L inp q := by
  cases L with
  | none => intro h; exact h
  | some tok =>
    cases tok with
    | StartTag tag sc attrs =>
      intro h
      exact ⟨h.1, fun he => hpq (h.2.1 he), h.2.2.1, h.2.2.2⟩
    | EndTag tag =>
      intro h
      exact ⟨h.1, fun he => hpq (h.2 he)⟩
    | Char c => intro h; exact h.elim
    | Eof => intro h; exact h.elim

theorem latestOkC_of_not {L : Option HtmlToken} {inp : List Ch} {p q : Prop} (hnp : ¬ p) :
    LatestOkC L inp p → LatestOkC L inp q :=
  latestOkC_mono (fun hp => absurd hp hnp)

theorem not_pend_of_state {t : HtmlTokenizer} {c : Ch} {s : State} (ht : t.state = s)
    (h1 : s ≠ State.TagName) (h2 : s ≠ State.ScriptDataEndTagName) :
    ¬((t.state = State.TagName ∨ t.state = State.ScriptDataEndTagName) ∧ c.isAlpha = true) := by
  rw [ht]
  rintro ⟨h | h, -⟩
  · exact h1 h
  · exact h2 h

theorem not_pend_of_not_alpha {t : HtmlTokenizer} {c : Ch} (hna : c.isAlpha = false) :
    ¬((t.state = State.TagName ∨ t.state = State.ScriptDataEndTagName) ∧ c.isAlpha = true) := by
  rintro ⟨-, ha⟩
  rw [hna] at ha
  exact Bool.false_ne_true ha

/-- The EOF predicate can never fire on a reachable state: `pos ≤ len`. -/
theorem is_eof_false {t : HtmlTokenizer} (h : t.pos ≤ t.input.length) : is_eof t = false := by
  unfold is_eof
  simp only [decide_eq_false_iff_not]
  omega

/-- A successful read preserves the invariant data and pins down the
delivered character. -/
theorem read1_inv {t : HtmlTokenizer} {c : Ch} {ev : Bool × Nat} {t1 : HtmlTokenizer}
    (ht : Inv t) (h : read1 t = some (c, ev, t1)) :
    ReadInv c t1 ∧ t1.input = t.input := by
  unfold read1 at h
  split at h
  · next hrec =>
    split at h
    · cases h
    · next hpos =>
      split at h
      · next c0 hget =>
        simp only [Option.some.injEq, Prod.mk.injEq] at h
        obtain ⟨hc, -, ht1⟩ := h
        subst hc
        subst ht1
        refine ⟨⟨ht.pos_le, ?_, hget, ?_, ht.buf_mem, ht.lt_mem, ht.slash_mem⟩, rfl⟩
        · show 1 ≤ t.pos
          omega
        refine latestOkC_mono ?_ ht.latest_ok
        rintro ⟨-, hs, d, hd, hda⟩
        rw [hget] at hd
        rw [← Option.some.inj hd] at hda
        exact ⟨hs, hda⟩
      · cases h
  · next hrec =>
    split at h
    · next c0 hget =>
      simp only [Option.some.injEq, Prod.mk.injEq] at h
      obtain ⟨hc, -, ht1⟩ := h
      subst hc
      subst ht1
      have hlt : t.pos < t.input.length := by
        rcases List.getElem?_eq_some_iff.mp hget with ⟨hh, -⟩
        exact hh
      refine ⟨⟨?_, ?_, by simpa using hget, ?_, ht.buf_mem, ht.lt_mem, ht.slash_mem⟩,
        rfl⟩
      · show t.pos + 1 ≤ t.input.length
        omega
      · show 1 ≤ t.pos + 1
        omega
      refine latestOkC_mono ?_ ht.latest_ok
      rintro ⟨hr, -, -⟩
      rw [hr] at hrec
      exact absurd rfl hrec
    · cases h

/-- Updating an attribute list's last element preserves pointwise properties,
given the property of the replacement. -/
theorem attrs_update_last {P : Attribute → Prop} {attrs : List Attribute} {b : Attribute}
    (hP : ∀ x ∈ attrs, P x) (hb : P b) :
    ∀ x ∈ attrs.dropLast ++ [b], P x := by
  intro x hx
  rcases List.mem_append.mp hx with h1 | h1
  · exact hP x (List.dropLast_subset attrs h1)
  · rw [List.mem_singleton.mp h1]
    exact hb

/-- An `is_eof` branch is unreachable under the position bound. -/
theorem eof_branch_absurd {t : HtmlTokenizer} {A : Prop} (hpos : t.pos ≤ t.input.length)
    (his : is_eof t = true) : A := by
  rw [is_eof_false hpos] at his
  cases his

/-- Emission via `take_latest_token` after the `state := Data` transition. -/
theorem emitLatest_stepInv {t : HtmlTokenizer}
    (hpos : t.pos ≤ t.input.length)
    (hL : LatestOkC t.latest_token t.input False)
    (hbuf : ∀ d ∈ t.buf, d ∈ t.input) :
    StepInv t.input (emitLatest { t with state := State.Data }) := by
  unfold emitLatest
  cases he : take_latest_token { t with state := State.Data } with
  | none => exact trivial
  | some x =>
    obtain ⟨tok, t2⟩ := x
    obtain ⟨hlat, ht2⟩ := take_latest_token_some he
    subst ht2
    refine ⟨⟨hpos, trivial, hbuf, ?_, ?_⟩, rfl, ?_⟩
    · intro hx
      simp at hx
    · intro hx
      simp at hx
    · have hlat' : t.latest_token = some tok := hlat
      rw [hlat'] at hL
      cases tok with
      | StartTag tag sc attrs =>
        exact ⟨fun he0 => (hL.2.1 he0).elim, hL.1, hL.2.2.1, hL.2.2.2⟩
      | EndTag tag => exact ⟨fun he0 => (hL.2 he0).elim, hL.1⟩
      | Char c0 => exact hL.elim
      | Eof => exact hL.elim

/-- `create_tag true` with the latch set on an alphabetic character. -/
theorem create_start_stepInv {c : Ch} {t : HtmlTokenizer} (h : ReadInv c t)
    (halpha : c.isAlpha = true) :
    StepInv t.input
      (StepResult.cont (create_tag { t with reconsume := true, state := State.TagName } true)) := by
  refine ⟨⟨h.pos_le, ?_, h.buf_mem, ?_, ?_⟩, rfl⟩
  · refine ⟨fun d hd => absurd hd (List.not_mem_nil d), ?_, ?_, ?_⟩
    · intro _
      exact ⟨rfl, Or.inl rfl, c, h.cur, halpha⟩
    · intro a ha
      exact absurd ha (List.not_mem_nil a)
    · intro a ha
      exact absurd ha (List.not_mem_nil a)
  · intro hx
    simp [create_tag] at hx
  · intro hx
    simp [create_tag] at hx

/-- `create_tag false` targeting `TagName`, latch set, alphabetic pending. -/
theorem create_end_tagname_stepInv {c : Ch} {t : HtmlTokenizer} (h : ReadInv c t)
    (halpha : c.isAlpha = true) :
    StepInv t.input
      (StepResult.cont (create_tag { t with reconsume := true, state := State.TagName } false)) := by
  refine ⟨⟨h.pos_le, ?_, h.buf_mem, ?_, ?_⟩, rfl⟩
  · exact ⟨fun d hd => absurd hd (List.not_mem_nil d),
      fun _ => ⟨rfl, Or.inl rfl, c, h.cur, halpha⟩⟩
  · intro hx
    simp [create_tag] at hx
  · intro hx
    simp [create_tag] at hx

/-- `create_tag false` targeting `ScriptDataEndTagName`. -/
theorem create_end_sdetn_stepInv {c : Ch} {t : HtmlTokenizer} (h : ReadInv c t)
    (halpha : c.isAlpha = true) (hlt : ('<' : Ch) ∈ t.input) (hslash : ('/' : Ch) ∈ t.input) :
    StepInv t.input
      (StepResult.cont
        (create_tag { t with reconsume := true, state := State.ScriptDataEndTagName } false)) := by
  refine ⟨⟨h.pos_le, ?_, h.buf_mem, fun _ => hlt, fun _ => hslash⟩, rfl⟩
  exact ⟨fun d hd => absurd hd (List.not_mem_nil d),
    fun _ => ⟨rfl, Or.inr rfl, c, h.cur, halpha⟩⟩

/-- Appending a non-uppercase character to the current tag name. -/
theorem append_tag_stepInv {t t' : HtmlTokenizer} {c0 : Ch} {P : Prop}
    (ha : append_tag_name t c0 = some t') (hup : c0.isUpper = false)
    (hL : LatestOkC t.latest_token t.input P)
    (hpos : t.pos ≤ t.input.length) (hbuf : ∀ d ∈ t.buf, d ∈ t.input)
    (hlt : t.state = State.ScriptDataLessThanSign ∨ t.state = State.ScriptDataEndTagOpen
      ∨ t.state = State.ScriptDataEndTagName → ('<' : Ch) ∈ t.input)
    (hslash : t.state = State.ScriptDataEndTagOpen ∨ t.state = State.ScriptDataEndTagName
      → ('/' : Ch) ∈ t.input) :
    StepInv t.input (StepResult.cont t') := by
  rcases append_tag_name_some ha with ⟨tag, sc, attrs, hlat, ht'⟩ | ⟨tag, hlat, ht'⟩ <;> subst ht'
  · rw [hlat] at hL
    refine ⟨⟨hpos, ?_, hbuf, hlt, hslash⟩, rfl⟩
    refine ⟨?_, fun he => absurd he (by simp), hL.2.2.1, hL.2.2.2⟩
    intro d hd
    rcases List.mem_append.mp hd with h1 | h1
    · exact hL.1 d h1
    · rw [List.mem_singleton.mp h1]
      exact hup
  · rw [hlat] at hL
    refine ⟨⟨hpos, ?_, hbuf, hlt, hslash⟩, rfl⟩
    refine ⟨?_, fun he => absurd he (by simp)⟩
    intro d hd
    rcases List.mem_append.mp hd with h1 | h1
    · exact hL.1 d h1
    · rw [List.mem_singleton.mp h1]
      exact hup

/-- Appending to the current attribute: lower-cased characters on the name
side, input characters on the value side. -/
theorem append_attribute_stepInv {t t' : HtmlTokenizer} {c0 : Ch} {b : Bool} {P : Prop}
    (ha : append_attribute t c0 b = some t')
    (hL : LatestOkC t.latest_token t.input P) (hnp : ¬ P)
    (hn : b = true → c0.isUpper = false)
    (hv : b = false → c0 ∈ t.input)
    (hpos : t.pos ≤ t.input.length) (hbuf : ∀ d ∈ t.buf, d ∈ t.input)
    (hlt : t.state = State.ScriptDataLessThanSign ∨ t.state = State.ScriptDataEndTagOpen
      ∨ t.state = State.ScriptDataEndTagName → ('<' : Ch) ∈ t.input)
    (hslash : t.state = State.ScriptDataEndTagOpen ∨ t.state = State.ScriptDataEndTagName
      → ('/' : Ch) ∈ t.input) :
    StepInv t.input (StepResult.cont t') := by
  obtain ⟨tag, sc, attrs, a, hlat, hga, ht'⟩ := append_attribute_some ha
  subst ht'
  rw [hlat] at hL
  have hamem : a ∈ attrs := List.mem_of_getLast?_eq_some hga
  have hbP : NoUpper ((a.add_char c0 b).name) := by
    cases b with
    | true =>
      intro d hd
      have hd2 : d ∈ a.name ∨ d = c0 := by simpa [Attribute.add_char] using hd
      rcases hd2 with h1 | h1
      · exact hL.2.2.1 a hamem d h1
      · rw [h1]
        exact hn rfl
    | false =>
      intro d hd
      exact hL.2.2.1 a hamem d (by simpa [Attribute.add_char] using hd)
  have hbV : ∀ d ∈ (a.add_char c0 b).value, d ∈ t.input := by
    cases b with
    | true =>
      intro d hd
      exact hL.2.2.2 a hamem d (by simpa [Attribute.add_char] using hd)
    | false =>
      intro d hd
      have hd2 : d ∈ a.value ∨ d = c0 := by simpa [Attribute.add_char] using hd
      rcases hd2 with h1 | h1
      · exact hL.2.2.2 a hamem d h1
      · rw [h1]
        exact hv rfl
  refine ⟨⟨hpos, ?_, hbuf, hlt, hslash⟩, rfl⟩
  refine ⟨hL.1, fun he => absurd (hL.2.1 he) hnp, ?_, ?_⟩
  · exact attrs_update_last hL.2.2.1 hbP
  · exact attrs_update_last hL.2.2.2 hbV

/-- Starting a fresh (empty) attribute on the current start tag. -/
theorem start_new_attribute_stepInv {s t' : HtmlTokenizer} {P : Prop}
    (ha : start_new_attribute s = some t')
    (hL : LatestOkC s.latest_token s.input P) (hnp : ¬ P)
    (hpos : s.pos ≤ s.input.length) (hbuf : ∀ d ∈ s.buf, d ∈ s.input)
    (hlt : s.state = State.ScriptDataLessThanSign ∨ s.state = State.ScriptDataEndTagOpen
      ∨ s.state = State.ScriptDataEndTagName → ('<' : Ch) ∈ s.input)
    (hslash : s.state = State.ScriptDataEndTagOpen ∨ s.state = State.ScriptDataEndTagName
      → ('/' : Ch) ∈ s.input) :
    StepInv s.input (StepResult.cont t') := by
  obtain ⟨tag, sc, attrs, hlat, ht'⟩ := start_new_attribute_some ha
  subst ht'
  rw [hlat] at hL
  refine ⟨⟨hpos, ?_, hbuf, hlt, hslash⟩, rfl⟩
  refine ⟨hL.1, fun he => absurd (hL.2.1 he) hnp, ?_, ?_⟩
  · intro x hx
    rcases List.mem_append.mp hx with h1 | h1
    · exact hL.2.2.1 x h1
    · rw [List.mem_singleton.mp h1]
      intro d hd
      exact absurd hd (List.not_mem_nil d)
  · intro x hx
    rcases List.mem_append.mp hx with h1 | h1
    · exact hL.2.2.2 x h1
    · rw [List.mem_singleton.mp h1]
      intro d hd
      exact absurd hd (List.not_mem_nil d)

/-- Soundness of the loop body: from any post-read state satisfying
`ReadInv`, the handler preserves the invariant and only emits tokens
satisfying `EmitOk` — in particular never `Eof`, never an empty tag name,
never an uppercase letter in a tag or attribute name, and never a character
foreign to the input. -/
theorem handle_inv (c : Ch) (t : HtmlTokenizer) (h : ReadInv c t) :
    StepInv t.input (handle c t) := by
  unfold handle
  cases ht : t.state
  case Data =>
    have hnp := not_pend_of_state (c := c) ht (by decide) (by decide)
    unfold handleData
    split_ifs with hc his
    · refine ⟨⟨h.pos_le, latestOkC_of_not hnp h.latest_ok, h.buf_mem, ?_, ?_⟩, rfl⟩
      · intro hx; simp at hx
      · intro hx; simp at hx
    · exact eof_branch_absurd h.pos_le his
    · refine ⟨⟨h.pos_le, latestOkC_of_not hnp h.latest_ok, h.buf_mem, ?_, ?_⟩, rfl,
        List.getElem?_mem h.cur⟩
      · intro hx; rw [ht] at hx; simp at hx
      · intro hx; rw [ht] at hx; simp at hx
  case TagOpen =>
    have hnp := not_pend_of_state (c := c) ht (by decide) (by decide)
    unfold handleTagOpen
    split_ifs with hc halpha his
    · refine ⟨⟨h.pos_le, latestOkC_of_not hnp h.latest_ok, h.buf_mem, ?_, ?_⟩, rfl⟩
      · intro hx; simp at hx
      · intro hx; simp at hx
    · exact create_start_stepInv h halpha
    · exact eof_branch_absurd h.pos_le his
    · refine ⟨⟨h.pos_le, latestOkC_of_not hnp h.latest_ok, h.buf_mem, ?_, ?_⟩, rfl⟩
      · intro hx; simp at hx
      · intro hx; simp at hx
  case EndTagOpen =>
    have hnp := not_pend_of_state (c := c) ht (by decide) (by decide)
    unfold handleEndTagOpen
    split_ifs with his halpha
    · exact eof_branch_absurd h.pos_le his
    · exact create_end_tagname_stepInv h halpha
    · refine ⟨⟨h.pos_le, latestOkC_of_not hnp h.latest_ok, h.buf_mem, ?_, ?_⟩, rfl⟩
      · intro hx; rw [ht] at hx; simp at hx
      · intro hx; rw [ht] at hx; simp at hx
  case TagName =>
    unfold handleTagName
    split_ifs with hc hc hc hup his
    · have hnp := not_pend_of_not_alpha (t := t) (c := c) (by rw [hc]; decide)
      refine ⟨⟨h.pos_le, latestOkC_of_not hnp h.latest_ok, h.buf_mem, ?_, ?_⟩, rfl⟩
      · intro hx; simp at hx
      · intro hx; simp at hx
    · have hnp := not_pend_of_not_alpha (t := t) (c := c) (by rw [hc]; decide)
      refine ⟨⟨h.pos_le, latestOkC_of_not hnp h.latest_ok, h.buf_mem, ?_, ?_⟩, rfl⟩
      · intro hx; simp at hx
      · intro hx; simp at hx
    · have hnp := not_pend_of_not_alpha (t := t) (c := c) (by rw [hc]; decide)
      exact emitLatest_stepInv h.pos_le (latestOkC_of_not hnp h.latest_ok) h.buf_mem
    · cases ha : append_tag_name t (Char.toLower c) with
      | none => exact trivial
      | some t' =>
        exact append_tag_stepInv ha (toLower_not_upper c) h.latest_ok h.pos_le h.buf_mem
          h.lt_mem h.slash_mem
    · exact eof_branch_absurd h.pos_le his
    · cases ha : append_tag_name t c with
      | none => exact trivial
      | some t' =>
        exact append_tag_stepInv ha (by simpa using hup) h.latest_ok h.pos_le h.buf_mem
          h.lt_mem h.slash_mem
  case BeforeAttributeName =>
    have hnp := not_pend_of_state (c := c) ht (by decide) (by decide)
    unfold handleBeforeAttributeName
    split_ifs with hc
    · refine ⟨⟨h.pos_le, latestOkC_of_not hnp h.latest_ok, h.buf_mem, ?_, ?_⟩, rfl⟩
      · intro hx; simp at hx
      · intro hx; simp at hx
    · cases ha : start_new_attribute
          { t with reconsume := true, state := State.AttributeName } with
      | none => exact trivial
      | some t' =>
        exact start_new_attribute_stepInv
          (s := { t with reconsume := true, state := State.AttributeName })
          ha h.latest_ok hnp h.pos_le h.buf_mem
          (fun hx => by simp at hx) (fun hx => by simp at hx)
  case AttributeName =>
    have hnp := not_pend_of_state (c := c) ht (by decide) (by decide)
    unfold handleAttributeName
    split_ifs with hc hc hup
    · refine ⟨⟨h.pos_le, latestOkC_of_not hnp h.latest_ok, h.buf_mem, ?_, ?_⟩, rfl⟩
      · intro hx; simp at hx
      · intro hx; simp at hx
    · refine ⟨⟨h.pos_le, latestOkC_of_not hnp h.latest_ok, h.buf_mem, ?_, ?_⟩, rfl⟩
      · intro hx; simp at hx
      · intro hx; simp at hx
    · cases ha : append_attribute t (Char.toLower c) true with
      | none => exact trivial
      | some t' =>
        exact append_attribute_stepInv ha h.latest_ok hnp (fun _ => toLower_not_upper c)
          (fun hb => by cases hb) h.pos_le h.buf_mem h.lt_mem h.slash_mem
    · cases ha : append_attribute t c true with
      | none => exact trivial
      | some t' =>
        exact append_attribute_stepInv ha h.latest_ok hnp (fun _ => by simpa using hup)
          (fun hb => by cases hb) h.pos_le h.buf_mem h.lt_mem h.slash_mem
  case AfterAttributeName =>
    have hnp := not_pend_of_state (c := c) ht (by decide) (by decide)
    unfold handleAfterAttributeName
    split_ifs with hc hc hc hc his
    · refine ⟨⟨h.pos_le, latestOkC_of_not hnp h.latest_ok, h.buf_mem, ?_, ?_⟩, rfl⟩
      · intro hx; rw [ht] at hx; simp at hx
      · intro hx; rw [ht] at hx; simp at hx
    · refine ⟨⟨h.pos_le, latestOkC_of_not hnp h.latest_ok, h.buf_mem, ?_, ?_⟩, rfl⟩
      · intro hx; simp at hx
      · intro hx; simp at hx
    · refine ⟨⟨h.pos_le, latestOkC_of_not hnp h.latest_ok, h.buf_mem, ?_, ?_⟩, rfl⟩
      · intro hx; simp at hx
      · intro hx; simp at hx
    · exact emitLatest_stepInv h.pos_le (latestOkC_of_not hnp h.latest_ok) h.buf_mem
    · exact eof_branch_absurd h.pos_le his
    · cases ha : start_new_attribute
          { t with reconsume := true, state := State.AttributeName } with
      | none => exact trivial
      | some t' =>
        exact start_new_attribute_stepInv
          (s := { t with reconsume := true, state := State.AttributeName })
          ha h.latest_ok hnp h.pos_le h.buf_mem
          (fun hx => by simp at hx) (fun hx => by simp at hx)
  case BeforeAttributeValue =>
    have hnp := not_pend_of_state (c := c) ht (by decide) (by decide)
    unfold handleBeforeAttributeValue
    split_ifs with hc hc hc
    · refine ⟨⟨h.pos_le, latestOkC_of_not hnp h.latest_ok, h.buf_mem, ?_, ?_⟩, rfl⟩
      · intro hx; rw [ht] at hx; simp at hx
      · intro hx; rw [ht] at hx; simp at hx
    · refine ⟨⟨h.pos_le, latestOkC_of_not hnp h.latest_ok, h.buf_mem, ?_, ?_⟩, rfl⟩
      · intro hx; simp at hx
      · intro hx; simp at hx
    · refine ⟨⟨h.pos_le, latestOkC_of_not hnp h.latest_ok, h.buf_mem, ?_, ?_⟩, rfl⟩
      · intro hx; simp at hx
      · intro hx; simp at hx
    · refine ⟨⟨h.pos_le, latestOkC_of_not hnp h.latest_ok, h.buf_mem, ?_, ?_⟩, rfl⟩
      · intro hx; simp at hx
      · intro hx; simp at hx
  case AttributeValueDoubleQuoted =>
    have hnp := not_pend_of_state (c := c) ht (by decide) (by decide)
    unfold handleAttributeValueDoubleQuoted
    split_ifs with hc his
    · refine ⟨⟨h.pos_le, latestOkC_of_not hnp h.latest_ok, h.buf_mem, ?_, ?_⟩, rfl⟩
      · intro hx; simp at hx
      · intro hx; simp at hx
    · exact eof_branch_absurd h.pos_le his
    · cases ha : append_attribute t c false with
      | none => exact trivial
      | some t' =>
        exact append_attribute_stepInv ha h.latest_ok hnp (fun hb => by cases hb)
          (fun _ => List.getElem?_mem h.cur) h.pos_le h.buf_mem h.lt_mem h.slash_mem
  case AttributeValueSingleQuoted =>
    have hnp := not_pend_of_state (c := c) ht (by decide) (by decide)
    unfold handleAttributeValueSingleQuoted
    split_ifs with hc his
    · refine ⟨⟨h.pos_le, latestOkC_of_not hnp h.latest_ok, h.buf_mem, ?_, ?_⟩, rfl⟩
      · intro hx; simp at hx
      · intro hx; simp at hx
    · exact eof_branch_absurd h.pos_le his
    · cases ha : append_attribute t c false with
      | none => exact trivial
      | some t' =>
        exact append_attribute_stepInv ha h.latest_ok hnp (fun hb => by cases hb)
          (fun _ => List.getElem?_mem h.cur) h.pos_le h.buf_mem h.lt_mem h.slash_mem
  case AttributeValueUnquoted =>
    have hnp := not_pend_of_state (c := c) ht (by decide) (by decide)
    unfold handleAttributeValueUnquoted
    split_ifs with hc hc his
    · refine ⟨⟨h.pos_le, latestOkC_of_not hnp h.latest_ok, h.buf_mem, ?_, ?_⟩, rfl⟩
      · intro hx; simp at hx
      · intro hx; simp at hx
    · exact emitLatest_stepInv h.pos_le (latestOkC_of_not hnp h.latest_ok) h.buf_mem
    · exact eof_branch_absurd h.pos_le his
    · cases ha : append_attribute t c false with
      | none => exact trivial
      | some t' =>
        exact append_attribute_stepInv ha h.latest_ok hnp (fun hb => by cases hb)
          (fun _ => List.getElem?_mem h.cur) h.pos_le h.buf_mem h.lt_mem h.slash_mem
  case AfterAttributeValueQuoted =>
    have hnp := not_pend_of_state (c := c) ht (by decide) (by decide)
    unfold handleAfterAttributeValueQuoted
    split_ifs with hc hc hc his
    · refine ⟨⟨h.pos_le, latestOkC_of_not hnp h.latest_ok, h.buf_mem, ?_, ?_⟩, rfl⟩
      · intro hx; simp at hx
      · intro hx; simp at hx
    · refine ⟨⟨h.pos_le, latestOkC_of_not hnp h.latest_ok, h.buf_mem, ?_, ?_⟩, rfl⟩
      · intro hx; simp at hx
      · intro hx; simp at hx
    · exact emitLatest_stepInv h.pos_le (latestOkC_of_not hnp h.latest_ok) h.buf_mem
    · exact eof_branch_absurd h.pos_le his
    · refine ⟨⟨h.pos_le, latestOkC_of_not hnp h.latest_ok, h.buf_mem, ?_, ?_⟩, rfl⟩
      · intro hx; simp at hx
      · intro hx; simp at hx
  case SelfClosingStartTag =>
    have hnp := not_pend_of_state (c := c) ht (by decide) (by decide)
    unfold handleSelfClosingStartTag
    split_ifs with hc his
    · cases hs : set_self_closing_flag t with
      | none => exact trivial
      | some t1 =>
        obtain ⟨tg, sc, ats, hlat, ht1⟩ := set_self_closing_flag_some hs
        subst ht1
        have hL0 := h.latest_ok
        rw [hlat] at hL0
        exact emitLatest_stepInv
          (t := { t with latest_token := some (HtmlToken.StartTag tg true ats) })
          h.pos_le
          ⟨hL0.1, fun he => absurd (hL0.2.1 he) hnp, hL0.2.2.1, hL0.2.2.2⟩
          h.buf_mem
    · exact eof_branch_absurd h.pos_le his
    · refine ⟨⟨h.pos_le, latestOkC_of_not hnp h.latest_ok, h.buf_mem, ?_, ?_⟩, rfl⟩
      · intro hx; rw [ht] at hx; simp at hx
      · intro hx; rw [ht] at hx; simp at hx
  case ScriptData =>
    have hnp := not_pend_of_state (c := c) ht (by decide) (by decide)
    unfold handleScriptData
    split_ifs with hc his
    · refine ⟨⟨h.pos_le, latestOkC_of_not hnp h.latest_ok, h.buf_mem, ?_, ?_⟩, rfl⟩
      · intro _
        rw [← hc]
        exact List.getElem?_mem h.cur
      · intro hx; simp at hx
    · exact eof_branch_absurd h.pos_le his
    · refine ⟨⟨h.pos_le, latestOkC_of_not hnp h.latest_ok, h.buf_mem, ?_, ?_⟩, rfl,
        List.getElem?_mem h.cur⟩
      · intro hx; rw [ht] at hx; simp at hx
      · intro hx; rw [ht] at hx; simp at hx
  case ScriptDataLessThanSign =>
    have hnp := not_pend_of_state (c := c) ht (by decide) (by decide)
    unfold handleScriptDataLessThanSign
    split_ifs with hc
    · refine ⟨⟨h.pos_le, latestOkC_of_not hnp h.latest_ok, ?_, ?_, ?_⟩, rfl⟩
      · intro d hd
        exact absurd hd (List.not_mem_nil d)
      · intro _
        exact h.lt_mem (Or.inl ht)
      · intro _
        rw [← hc]
        exact List.getElem?_mem h.cur
    · refine ⟨⟨h.pos_le, latestOkC_of_not hnp h.latest_ok, h.buf_mem, ?_, ?_⟩, rfl,
        h.lt_mem (Or.inl ht)⟩
      · intro hx; simp at hx
      · intro hx; simp at hx
  case ScriptDataEndTagOpen =>
    have hnp := not_pend_of_state (c := c) ht (by decide) (by decide)
    unfold handleScriptDataEndTagOpen
    split_ifs with halpha
    · exact create_end_sdetn_stepInv h halpha (h.lt_mem (Or.inr (Or.inl ht)))
        (h.slash_mem (Or.inl ht))
    · refine ⟨⟨h.pos_le, latestOkC_of_not hnp h.latest_ok, h.buf_mem, ?_, ?_⟩, rfl,
        h.lt_mem (Or.inr (Or.inl ht))⟩
      · intro hx; simp at hx
      · intro hx; simp at hx
  case ScriptDataEndTagName =>
    unfold handleScriptDataEndTagName
    split_ifs with hc halpha
    · have hnp := not_pend_of_not_alpha (t := t) (c := c) (by rw [hc]; decide)
      exact emitLatest_stepInv h.pos_le (latestOkC_of_not hnp h.latest_ok) h.buf_mem
    · cases ha : append_tag_name { t with buf := t.buf ++ [c] } (Char.toLower c) with
      | none => exact trivial
      | some t' =>
        refine append_tag_stepInv (t := { t with buf := t.buf ++ [c] })
          ha (toLower_not_upper c) h.latest_ok h.pos_le ?_ ?_ ?_
        · intro d hd
          rcases List.mem_append.mp hd with h1 | h1
          · exact h.buf_mem d h1
          · rw [List.mem_singleton.mp h1]
            exact List.getElem?_mem h.cur
        · intro _
          exact h.lt_mem (Or.inr (Or.inr ht))
        · intro _
          exact h.slash_mem (Or.inr ht)
    · have hnp := not_pend_of_not_alpha (t := t) (c := c) (by simpa using halpha)
      refine ⟨⟨h.pos_le, latestOkC_of_not hnp h.latest_ok, ?_, ?_, ?_⟩, rfl⟩
      · intro d hd
        rcases List.mem_cons.mp hd with h1 | hd2
        · rw [h1]
          exact h.lt_mem (Or.inr (Or.inr ht))
        rcases List.mem_cons.mp hd2 with h1 | hd3
        · rw [h1]
          exact h.slash_mem (Or.inr ht)
        rcases List.mem_append.mp hd3 with h1 | h1
        · exact h.buf_mem d h1
        · rw [List.mem_singleton.mp h1]
          exact List.getElem?_mem h.cur
      · intro hx; simp at hx
      · intro hx; simp at hx
  case TemporaryBuffer =>
    have hnp := not_pend_of_state (c := c) ht (by decide) (by decide)
    unfold handleTemporaryBuffer
    cases hb : t.buf with
    | nil =>
      refine ⟨⟨h.pos_le, latestOkC_of_not hnp h.latest_ok, ?_, ?_, ?_⟩, rfl⟩
      · intro d hd
        exact h.buf_mem d (hb ▸ hd)
      · intro hx; simp at hx
      · intro hx; simp at hx
    | cons c0 rest =>
      refine ⟨⟨h.pos_le, latestOkC_of_not hnp h.latest_ok, ?_, ?_, ?_⟩, rfl, ?_⟩
      · intro d hd
        refine h.buf_mem d ?_
        rw [hb]
        exact List.mem_cons_of_mem c0 hd
      · intro hx; rw [ht] at hx; simp at hx
      · intro hx; rw [ht] at hx; simp at hx
      · refine h.buf_mem c0 ?_
        rw [hb]
        exact List.mem_cons_self c0 rest

/-- One loop-body iteration preserves the invariant. -/
theorem step1_inv {t : HtmlTokenizer} (h : Inv t) : StepInv t.input (step1 t) := by
  unfold step1
  cases hr : read1 t with
  | none => exact trivial
  | some x =>
    obtain ⟨c, ev, t1⟩ := x
    obtain ⟨h1, hinp⟩ := read1_inv h hr
    have h2 := handle_inv c t1 h1
    rw [hinp] at h2
    exact h2

/-- Invariant statement for a pull outcome. -/
def NextInv (inp : List Ch) : NextResult → Prop
  | .tok tok t' => Inv t' ∧ t'.input = inp ∧ EmitOk tok inp
  | _ => True

theorem nextAux_inv : ∀ (fuel : Nat) (t : HtmlTokenizer), Inv t →
    NextInv t.input (nextAux fuel t) := by
  intro fuel
  induction fuel with
  | zero =>
    intro t _
    exact trivial
  | succ n ih =>
    intro t h
    have hs := step1_inv h
    have he : nextAux (n + 1) t =
        (match step1 t with
          | .emit tok t' => NextResult.tok tok t'
          | .cont t' => nextAux n t'
          | .abort => NextResult.aborted) := rfl
    rw [he]
    cases hss : step1 t with
    | emit tok t' =>
      rw [hss] at hs
      exact ⟨hs.1, hs.2.1, hs.2.2⟩
    | cont t' =>
      rw [hss] at hs
      have h3 := ih t' hs.1
      rw [hs.2] at h3
      exact h3
    | abort => exact trivial

theorem next_inv (fuel : Nat) (t : HtmlTokenizer) (h : Inv t) :
    NextInv t.input (next fuel t) := by
  unfold next
  split
  · exact trivial
  · exact nextAux_inv fuel t h

/-- Tokenizer states reachable from a fresh tokenizer on `input` by pulls
that produced a token. -/
inductive Reachable (input : List Ch) : HtmlTokenizer → Prop where
  | base : Reachable input (HtmlTokenizer.new input)
  | pull (fuel : Nat) (t : HtmlTokenizer) (tok : HtmlToken) (t' : HtmlTokenizer) :
      Reachable input t → next fuel t = NextResult.tok tok t' → Reachable input t'

theorem reachable_inv {input : List Ch} {t : HtmlTokenizer} (h : Reachable input t) :
    Inv t ∧ t.input = input := by
  induction h with
  | base =>
    refine ⟨⟨Nat.zero_le _, trivial, ?_, ?_, ?_⟩, rfl⟩
    · intro d hd
      exact absurd hd (List.not_mem_nil d)
    · intro hx
      simp [HtmlTokenizer.new] at hx
    · intro hx
      simp [HtmlTokenizer.new] at hx
  | pull fuel t tok t' hre hnext ih =>
    have h2 := next_inv fuel t ih.1
    rw [hnext] at h2
    exact ⟨h2.1, by rw [h2.2.1, ih.2]⟩

/-- C10: in every reachable tokenizer state `pos ≤ len(input)` holds, so the
EOF predicate `pos > len(input)` of `is_eof` never fires, and no pull ever
returns the `Eof` token — every Eof-emitting branch is unreachable. -/
theorem c10_no_eof (input : List Ch) (t : HtmlTokenizer) (h : Reachable input t) :
    t.pos ≤ t.input.length ∧ is_eof t = false
    ∧ ∀ (fuel : Nat) (t' : HtmlTokenizer), next fuel t ≠ NextResult.tok HtmlToken.Eof t' := by
  obtain ⟨hi, -⟩ := reachable_inv h
  refine ⟨hi.pos_le, is_eof_false hi.pos_le, ?_⟩
  intro fuel t' he
  have h2 := next_inv fuel t hi
  rw [he] at h2
  exact h2.2.2

theorem c10_no_eof_witness :
    (HtmlTokenizer.new ("a".toList)).pos ≤ (HtmlTokenizer.new ("a".toList)).input.length
    ∧ is_eof (HtmlTokenizer.new ("a".toList)) = false
    ∧ ∀ (fuel : Nat) (t' : HtmlTokenizer),
        next fuel (HtmlTokenizer.new ("a".toList)) ≠ NextResult.tok HtmlToken.Eof t' :=
  c10_no_eof ("a".toList) (HtmlTokenizer.new ("a".toList)) Reachable.base

/-- A tag token has a non-empty tag name (trivially true of other shapes). -/
def tagNonempty : HtmlToken → Prop
  | .StartTag tag _ _ => tag ≠ []
  | .EndTag tag => tag ≠ []
  | _ => True

/-- C9: every StartTag or EndTag token emitted by any pull of a reachable
tokenizer has a non-empty tag name. -/
theorem c9_tag_nonempty (input : List Ch) (t : HtmlTokenizer) (h : Reachable input t)
    (fuel : Nat) (tok : HtmlToken) (t' : HtmlTokenizer)
    (he : next fuel t = NextResult.tok tok t') : tagNonempty tok := by
  obtain ⟨hi, -⟩ := reachable_inv h
  have h2 := next_inv fuel t hi
  rw [he] at h2
  have hE := h2.2.2
  cases tok with
  | StartTag tag sc attrs => exact hE.1
  | EndTag tag => exact hE.1
  | Char c0 => exact trivial
  | Eof => exact hE.elim

theorem c9_tag_nonempty_witness : tagNonempty (HtmlToken.StartTag ("a".toList) false []) :=
  c9_tag_nonempty ("<a>".toList) (HtmlTokenizer.new ("<a>".toList)) Reachable.base 10
    (HtmlToken.StartTag ("a".toList) false []) _ rfl

/-- C7's per-token contract: tag and attribute names are free of ASCII
uppercase letters, while character tokens and attribute-value characters are
literally characters of the input (delivered with no case change). -/
def caseContract : HtmlToken → List Ch → Prop
  | .StartTag tag _ attrs, inp => NoUpper tag ∧ (∀ a ∈ attrs, NoUpper a.name)
      ∧ (∀ a ∈ attrs, ∀ d ∈ a.value, d ∈ inp)
  | .EndTag tag, _ => NoUpper tag
  | .Char c, inp => c ∈ inp
  | .Eof, _ => True

/-- C7: every token emitted by any pull of a reachable tokenizer satisfies
the case-folding contract: tag names and attribute names contain no ASCII
uppercase letter (uppercase input is appended lower-cased), and emitted
character-token characters and accumulated attribute-value characters are
taken from the input unchanged. -/
theorem c7_case_folding (input : List Ch) (t : HtmlTokenizer) (h : Reachable input t)
    (fuel : Nat) (tok : HtmlToken) (t' : HtmlTokenizer)
    (he : next fuel t = NextResult.tok tok t') : caseContract tok input := by
  obtain ⟨hi, hinp⟩ := reachable_inv h
  have h2 := next_inv fuel t hi
  rw [he] at h2
  have hE := h2.2.2
  rw [hinp] at hE
  cases tok with
  | StartTag tag sc attrs => exact ⟨hE.2.1, hE.2.2.1, hE.2.2.2⟩
  | EndTag tag => exact hE.2
  | Char c0 => exact hE
  | Eof => exact trivial

theorem c7_case_folding_witness :
    caseContract (HtmlToken.StartTag ("a".toList) false [⟨"href".toList, "Xy".toList⟩])
      ("<A Href=\"Xy\">".toList) :=
  c7_case_folding ("<A Href=\"Xy\">".toList)
    (HtmlTokenizer.new ("<A Href=\"Xy\">".toList)) Reachable.base 50
    (HtmlToken.StartTag ("a".toList) false [⟨"href".toList, "Xy".toList⟩]) _ rfl

end SabaSpec
